import Mathlib

/-!
# Parallel queue (`pq`) event loop

A shallow embedding of `src/pq.c` / `src/pq.h`: the handle and event records, the enqueue
protocol `pq_invoke_cb`, the lifecycle operations `pq_set_defaults` / `pq_start`, and the
worker loop `pq_task` (drain phase and idle phase).

Conventions of the embedding

* A C function pointer is the index of the function in the callback tables of `Env`;
  `none` is `NULL`.  A `void *` argument is a natural number.
* A nullable `pq_handle *` is an `Option pq_handle`; every operation returns the handle
  memory after the call next to its C result.
* Callbacks are arbitrary C code: a callback is a transformer of the user memory `σ` and of
  the handle (so it may enqueue, or even reset the queue as `pq_demo_empty_cb` does),
  returning its `int` result.
* The FreeRTOS queue is a bounded list.  Producers running on other tasks or in interrupts
  are an explicit input of the worker: for every blocking `xQueuePeek` the script tells
  which `pq_invoke_cb` calls are made while the worker waits.
* Everything the worker calls is appended to a trace, together with the `idle_count` the
  callee can read from the handle it is given.
-/

namespace PQ

/-! ## Data model (`pq.h`) -/

/-- Record `struct _pq_event`, enqueued by `pq_invoke_cb` and received by `pq_task`. -/
structure pq_event where
  cb : Option Nat
  mgcb : Option Nat
  pqh : Nat
  arg : Nat
deriving DecidableEq

/-- The FreeRTOS queue object behind a `QueueHandle_t`: its length (capacity, in items) and
the items it holds, head first. -/
structure Queue where
  cap : Nat
  items : List pq_event
deriving DecidableEq

/-- Record `struct _pq_handle`.  `addr` is not a C field: it is the address of the struct,
the value that `pq_invoke_cb` stores into `pq_event.pqh`. -/
structure pq_handle where
  queue : Option Queue
  task : Option Nat
  idle_cb : Option Nat
  idle_cb_arg : Nat
  idle_interval_ms : Int
  idle_count : Nat
  prio : Nat
  stack_size : Nat
  queue_len : Nat
  name : String
  addr : Nat
deriving DecidableEq

def PQ_MS_DEFAULT : Int := 1000
def PQ_MS_NOWAIT : Int := 0
def PQ_MS_FOREVER : Int := -1
def PQ_MS_SINGLE_TICK : Int := -2

def MGOS_TASK_PRIORITY : Nat := 5
def MGOS_TASK_STACK_SIZE_UNIT : Nat := 1
def MGOS_TASK_QUEUE_LENGTH : Nat := 32
def MGOS_TASK_STACK_SIZE_BYTES : Nat := 8192

/-- Macro `PQ_MS_TO_TICKS(ms)`.  The result `none` is `portMAX_DELAY` (wait forever); the
FreeRTOS macro `pdMS_TO_TICKS` is a parameter. -/
def PQ_MS_TO_TICKS (pdMS_TO_TICKS : Int → Nat) (ms : Int) : Option Nat :=
  if ms = PQ_MS_SINGLE_TICK then some 1
  else if ms = PQ_MS_FOREVER then none
  else some (pdMS_TO_TICKS ms)

/-! ## The FreeRTOS collaborators -/

/-- FreeRTOS `xQueueCreate(len, item_size)`: `NULL` when the allocation fails (or the length
is zero), otherwise an empty queue of that length. -/
def xQueueCreate (alloc_ok : Bool) (len : Nat) : Option Queue :=
  if alloc_ok = true ∧ 0 < len then some { cap := len, items := [] } else none

/-- FreeRTOS `xTaskCreate(...)`: `none` when the spawn fails, otherwise `pdPASS` together
with the task handle written through the last argument. -/
def xTaskCreate (spawn : Option Nat) : Option Nat := spawn

/-- FreeRTOS `xQueueSendToBack(q, &e, ticks)`.  With space the item goes to the tail; on a
full queue the caller waits `ticks` and, nothing being consumed meanwhile, gets
`errQUEUE_FULL`. -/
def xQueueSendToBack (q : Queue) (e : pq_event) (_ticks : Nat) : Queue × Bool :=
  if q.items.length < q.cap then ({ q with items := q.items ++ [e] }, true) else (q, false)

/-- FreeRTOS `xQueueSendToFront(q, &e, ticks)`: as `xQueueSendToBack`, at the head. -/
def xQueueSendToFront (q : Queue) (e : pq_event) (_ticks : Nat) : Queue × Bool :=
  if q.items.length < q.cap then ({ q with items := e :: q.items }, true) else (q, false)

/-- FreeRTOS `xQueueSendToBackFromISR(q, &e, &should_yield)`: never waits. -/
def xQueueSendToBackFromISR (q : Queue) (e : pq_event) : Queue × Bool :=
  if q.items.length < q.cap then ({ q with items := q.items ++ [e] }, true) else (q, false)

/-- FreeRTOS `xQueueSendToFrontFromISR(q, &e, &should_yield)`: never waits. -/
def xQueueSendToFrontFromISR (q : Queue) (e : pq_event) : Queue × Bool :=
  if q.items.length < q.cap then ({ q with items := e :: q.items }, true) else (q, false)

/-- FreeRTOS `xQueueReceive(q, &e, 0)`: removes the head, `none` when the queue is empty. -/
def xQueueReceive (q : Queue) : Option (pq_event × Queue) :=
  match q.items with
  | [] => none
  | e :: rest => some (e, { q with items := rest })

/-- FreeRTOS `uxQueueMessagesWaiting(q)`. -/
def uxQueueMessagesWaiting (q : Queue) : Nat := q.items.length

/-! ## `pq_waiting`, `pq_invoke_cb`, `pq_start`, `pq_set_defaults` -/

/-- Function `pq_waiting`: number of events waiting in the queue (`none`: the queue pointer
is `NULL`, which the C code dereferences). -/
def pq_waiting (h : pq_handle) : Option Nat := h.queue.map uxQueueMessagesWaiting

/-- Function `pq_invoke_cb(pqh, cb, mgcb, arg, from_isr, to_front)`. -/
def pq_invoke_cb (pqh : Option pq_handle) (cb : Option Nat) (mgcb : Option Nat) (arg : Nat)
    (from_isr : Bool) (to_front : Bool) : Option pq_handle × Bool :=
  match pqh with
  | none => (none, false)
  | some h =>
    match h.queue with
    | none => (some h, false)
    | some q =>
      let e : pq_event := { cb := cb, mgcb := mgcb, arg := arg, pqh := h.addr }
      if from_isr then
        if to_front then
          let r := xQueueSendToFrontFromISR q e
          if !r.2 then (some h, false) else (some { h with queue := some r.1 }, true)
        else
          let r := xQueueSendToBackFromISR q e
          if !r.2 then (some h, false) else (some { h with queue := some r.1 }, true)
      else
        if to_front then
          let r := xQueueSendToFront q e 10
          (some { h with queue := some r.1 }, r.2)
        else
          let r := xQueueSendToBack q e 10
          (some { h with queue := some r.1 }, r.2)

/-- Function `pq_start(pqh)`.  `alloc_ok` and `spawn` are the outcomes of the FreeRTOS
allocation of the queue and of the task creation. -/
def pq_start (alloc_ok : Bool) (spawn : Option Nat) (pqh : Option pq_handle) :
    Option pq_handle × Bool :=
  match pqh with
  | none => (none, false)
  | some h =>
    if h.queue ≠ none then (some h, false)
    else if h.task ≠ none then (some h, false)
    else
      let h1 := if h.queue_len = 0 then { h with queue_len := MGOS_TASK_QUEUE_LENGTH } else h
      let h2 :=
        if h1.stack_size = 0 then
          { h1 with stack_size := MGOS_TASK_STACK_SIZE_BYTES / MGOS_TASK_STACK_SIZE_UNIT }
        else h1
      let h3 := { h2 with queue := xQueueCreate alloc_ok h2.queue_len }
      if h3.queue = none then (some h3, false)
      else
        match xTaskCreate spawn with
        | none => (some h3, false)
        | some t => (some { h3 with task := some t }, true)

/-- Function `pq_set_defaults(pqh)`. -/
def pq_set_defaults (h : pq_handle) : pq_handle :=
  { h with
    name := "PQ"
    idle_interval_ms := PQ_MS_DEFAULT
    idle_cb := none
    idle_cb_arg := 0
    idle_count := 0
    prio := MGOS_TASK_PRIORITY
    queue_len := 0
    stack_size := 0
    queue := none
    task := none }

/-! ## The worker `pq_task` -/

/-- What the worker called: a legacy callback, a typed event callback, or the idle hook.
The last component of the typed calls is the `idle_count` of the handle passed in. -/
inductive Call where
  | mgcb (f : Nat) (arg : Nat)
  | cb (f : Nat) (arg : Nat) (idle_count : Nat)
  | idle (f : Nat) (arg : Nat) (idle_count : Nat)
deriving DecidableEq

/-- The platform and the user code: the width of `size_t`, the typed callbacks
(`pq_cb_t`, result `int`), the legacy callbacks (`mgos_cb_t`, no result) and the FreeRTOS
macro `pdMS_TO_TICKS`. -/
structure Env (σ : Type) where
  size_bits : Nat
  cb : Nat → σ → pq_handle → Nat → σ × pq_handle × Int
  mgcb : Nat → σ → pq_handle → Nat → σ × pq_handle
  pdMS_TO_TICKS : Int → Nat

/-- Memory seen by the worker: the handle, the user memory, and the trace of calls. -/
structure State (σ : Type) where
  h : pq_handle
  mem : σ
  trace : List Call

/-- One `pq_invoke_cb` call made by a producer. -/
structure Invoke where
  cb : Option Nat
  mgcb : Option Nat
  arg : Nat
  from_isr : Bool
  to_front : Bool
deriving DecidableEq

/-- Why a loop of the worker model stopped: the drain loop saw the queue empty; a peek saw
an event; the worker is blocked in a peek at the end of the script; the step budget ran
out; the queue pointer was `NULL`. -/
inductive Stop where
  | empty
  | woken
  | parked
  | fuel
  | fault
deriving DecidableEq

/-- A producer call on handle `h`: the handle afterwards and the result. -/
def invoke (h : pq_handle) (i : Invoke) : pq_handle × Bool :=
  let r := pq_invoke_cb (some h) i.cb i.mgcb i.arg i.from_isr i.to_front
  (r.1.getD h, r.2)

/-- A sequence of producer calls: the handle afterwards and the list of results. -/
def invokes : pq_handle → List Invoke → pq_handle × List Bool
  | h, [] => (h, [])
  | h, i :: rest =>
    let r := invoke h i
    let t := invokes r.1 rest
    (t.1, r.2 :: t.2)

/-- Line 39 of `pq.c`: `if(e.mgcb) e.mgcb(e.arg);`. -/
def run_mgcb {σ : Type} (env : Env σ) (s : State σ) (e : pq_event) : State σ :=
  match e.mgcb with
  | some m =>
    let r := env.mgcb m s.mem s.h e.arg
    { h := r.2, mem := r.1, trace := s.trace ++ [Call.mgcb m e.arg] }
  | none => s

/-- Body of the drain loop, `pq.c` lines 39-45, for the received event `e`. -/
def run_event {σ : Type} (env : Env σ) (s : State σ) (e : pq_event) : State σ :=
  let s1 := run_mgcb env s e
  match e.cb with
  | some c =>
    let r := env.cb c s1.mem s1.h e.arg
    let s2 : State σ :=
      { h := r.2.1, mem := r.1, trace := s1.trace ++ [Call.cb c e.arg s1.h.idle_count] }
    if r.2.2 = 0 then
      { s2 with h := (pq_invoke_cb (some s2.h) (some c) none e.arg false false).1.getD s2.h }
    else s2
  | none => s1

/-- The drain loop `while (xQueueReceive(pqh->queue, &e, 0)) ...`, `pq.c` lines 38-46, run
for at most `fuel` evaluations of the loop condition. -/
def drain {σ : Type} (env : Env σ) : Nat → State σ → State σ × Stop
  | 0, s => (s, Stop.fuel)
  | n + 1, s =>
    match s.h.queue with
    | none => (s, Stop.fault)
    | some q =>
      match xQueueReceive q with
      | none => (s, Stop.empty)
      | some (e, q1) => drain env n (run_event env { s with h := { s.h with queue := some q1 } } e)

/-- Is an event waiting?  (`none`: the queue pointer is `NULL`.) -/
def ready (h : pq_handle) : Option Bool := h.queue.map (fun q => !q.items.isEmpty)

/-- The producers of one script slot act on the handle. -/
def producers {σ : Type} (w : List Invoke) (s : State σ) : State σ :=
  { s with h := (invokes s.h w).1 }

/-- FreeRTOS `xQueuePeek(q, &e, portMAX_DELAY)`: returns at once when an event waits,
otherwise blocks, slot after slot of the script, until a producer has enqueued one. -/
def xQueuePeekForever {σ : Type} : List (List Invoke) → State σ →
    State σ × Stop × List (List Invoke)
  | ws, s =>
    match ready s.h with
    | none => (s, Stop.fault, ws)
    | some true => (s, Stop.woken, ws)
    | some false =>
      match ws with
      | [] => (s, Stop.parked, [])
      | w :: rest => xQueuePeekForever rest (producers w s)

/-- The idle loop `do ... while (!xQueuePeek(...))`, `pq.c` lines 50-57.  A timed peek on
an empty queue takes the next slot of the script: the peek succeeds when the producers of
that slot enqueue something and times out otherwise. -/
def idle_loop {σ : Type} (env : Env σ) : List (List Invoke) → State σ →
    State σ × Stop × List (List Invoke)
  | ws, s =>
    match s.h.idle_cb with
    | none => xQueuePeekForever ws s
    | some f =>
      let r := env.cb f s.mem s.h s.h.idle_cb_arg
      let s1 : State σ :=
        { h := r.2.1, mem := r.1,
          trace := s.trace ++ [Call.idle f s.h.idle_cb_arg s.h.idle_count] }
      if r.2.2 ≠ 0 then xQueuePeekForever ws s1
      else
        let s2 : State σ :=
          { s1 with h := { s1.h with idle_count := (s1.h.idle_count + 1) % 2 ^ env.size_bits } }
        match ready s2.h with
        | none => (s2, Stop.fault, ws)
        | some true => (s2, Stop.woken, ws)
        | some false =>
          match ws with
          | [] => (s2, Stop.parked, [])
          | w :: rest =>
            match PQ_MS_TO_TICKS env.pdMS_TO_TICKS s2.h.idle_interval_ms with
            | none => xQueuePeekForever rest (producers w s2)
            | some _ =>
              match ready (producers w s2).h with
              | none => (producers w s2, Stop.fault, rest)
              | some true => (producers w s2, Stop.woken, rest)
              | some false => idle_loop env rest (producers w s2)

/-- The idle phase, `pq.c` lines 49-57: reset `idle_count`, then the idle loop. -/
def idle_phase {σ : Type} (env : Env σ) (ws : List (List Invoke)) (s : State σ) :
    State σ × Stop × List (List Invoke) :=
  idle_loop env ws { s with h := { s.h with idle_count := 0 } }

/-- Function `pq_task`: `while (true) { drain; idle }`, for at most `rounds` rounds, each
drain phase for at most `fuel` loop tests. -/
def pq_task {σ : Type} (env : Env σ) (fuel : Nat) : Nat → List (List Invoke) → State σ →
    State σ × Stop
  | 0, _, s => (s, Stop.fuel)
  | r + 1, ws, s =>
    match drain env fuel s with
    | (s1, Stop.empty) =>
      match idle_phase env ws s1 with
      | (s2, Stop.woken, rest) => pq_task env fuel r rest s2
      | (s2, st, _) => (s2, st)
    | (s1, st) => (s1, st)

/-! ## Specification vocabulary -/

/-- The event that a producer call puts into the queue of the handle at address `addr`. -/
def Invoke.event (addr : Nat) (i : Invoke) : pq_event :=
  { cb := i.cb, mgcb := i.mgcb, arg := i.arg, pqh := addr }

/-- A call with the observed `idle_count` forgotten. -/
def Call.erase : Call → Call
  | Call.mgcb f a => Call.mgcb f a
  | Call.cb f a _ => Call.cb f a 0
  | Call.idle f a _ => Call.idle f a 0

/-- The calls (observations forgotten) that running one event gives rise to: the legacy
callback if present, then the typed callback if present. -/
def expected (e : pq_event) : List Call :=
  (match e.mgcb with
    | some m => [Call.mgcb m e.arg]
    | none => []) ++
  (match e.cb with
    | some c => [Call.cb c e.arg 0]
    | none => [])

/-- Is the call a call of a legacy callback? -/
def Call.isMgcb : Call → Bool
  | Call.mgcb _ _ => true
  | _ => false

/-- No callback of `env` touches the queue and every typed callback returns true. -/
def Quiet {σ : Type} (env : Env σ) : Prop :=
  (∀ f m h a, (env.cb f m h a).2.1.queue = h.queue ∧ (env.cb f m h a).2.2 ≠ 0) ∧
  (∀ f m h a, (env.mgcb f m h a).2.queue = h.queue)

/-- No callback of `env` touches the queue (the typed ones may return anything). -/
def KeepsQueue {σ : Type} (env : Env σ) : Prop :=
  (∀ f m h a, (env.cb f m h a).2.1.queue = h.queue) ∧
  (∀ f m h a, (env.mgcb f m h a).2.queue = h.queue)

/-- No callback of `env` writes the `idle_count` field. -/
def KeepsIdleCount {σ : Type} (env : Env σ) : Prop :=
  (∀ f m h a, (env.cb f m h a).2.1.idle_count = h.idle_count) ∧
  (∀ f m h a, (env.mgcb f m h a).2.idle_count = h.idle_count)

/-- The worker state after one turn of the idle loop in which the hook `f` was called, left
the handle alone and returned false, and the timed wait elapsed: the call is on the
trace, the user memory is what the hook left, and `idle_count` has been incremented. -/
def poll {σ : Type} (env : Env σ) (f : Nat) (s : State σ) : State σ :=
  { h := { s.h with idle_count := (s.h.idle_count + 1) % 2 ^ env.size_bits }
    mem := (env.cb f s.mem s.h s.h.idle_cb_arg).1
    trace := s.trace ++ [Call.idle f s.h.idle_cb_arg s.h.idle_count] }

/-- The worker state after `k` such turns. -/
def polls {σ : Type} (env : Env σ) (f : Nat) : Nat → State σ → State σ
  | 0, s => s
  | k + 1, s => polls env f k (poll env f s)

/-- In the run of the idle loop that starts in state `s`, the first `n` calls of the hook
`f` leave the handle alone and return false. -/
def FirstCallsFalse {σ : Type} (env : Env σ) (f : Nat) (n : Nat) (s : State σ) : Prop :=
  ∀ k, k < n →
    (env.cb f (polls env f k s).mem (polls env f k s).h (polls env f k s).h.idle_cb_arg).2.1 =
      (polls env f k s).h ∧
    (env.cb f (polls env f k s).mem (polls env f k s).h (polls env f k s).h.idle_cb_arg).2.2 = 0

/-! ## Concrete scenarios -/

/-- Function `pq_demo_idle_cb` of `pq_demo.c` (its result; it only logs besides). -/
def pq_demo_idle_cb (h : pq_handle) (_cb_arg : Nat) : Int :=
  if h.idle_count = 0 then 0
  else if 5 ≤ h.idle_count then 1
  else 0


/-- Replica of the demo setup: 32-bit `size_t`, 100 Hz ticks, callbacks that return true and
touch nothing. -/
def quiet_env : Env Unit :=
  { size_bits := 32
    cb := fun _ m h _ => (m, h, 1)
    mgcb := fun _ m h _ => (m, h)
    pdMS_TO_TICKS := fun ms => (ms / 10).toNat }

/-- As `quiet_env`, but every typed callback returns false (as `pq_demo_return_cb`). -/
def repeat_env : Env Unit :=
  { size_bits := 32
    cb := fun _ m h _ => (m, h, 0)
    mgcb := fun _ m h _ => (m, h)
    pdMS_TO_TICKS := fun ms => (ms / 10).toNat }

/-- Callback 3 enqueues an event for callback 2 (as `pq_demo_cb` enqueues) and returns false;
callback 7 returns false; callback 8 returns false while `idle_count < 2` and true otherwise;
callback 9 is `pq_demo_idle_cb`; every other callback returns true. -/
def demo_env : Env Unit :=
  { size_bits := 32
    cb := fun f m h a =>
      if f = 3 then (m, (pq_invoke_cb (some h) (some 2) none a false false).1.getD h, 0)
      else if f = 7 then (m, h, 0)
      else if f = 8 then (m, h, if h.idle_count < 2 then 0 else 1)
      else if f = 9 then (m, h, pq_demo_idle_cb h a)
      else (m, h, 1)
    mgcb := fun _ m h _ => (m, h)
    pdMS_TO_TICKS := fun ms => (ms / 10).toNat }

/-- A handle filled by `pq_set_defaults`. -/
def fresh : pq_handle :=
  pq_set_defaults
    { queue := none, task := none, idle_cb := none, idle_cb_arg := 0, idle_interval_ms := 0,
      idle_count := 0, prio := 0, stack_size := 0, queue_len := 0, name := "", addr := 64 }

/-- A started handle of capacity `len` (for `len > 0`) with idle hook `hook`. -/
def started (len : Nat) (hook : Option Nat) : pq_handle :=
  (pq_start true (some 1) (some { fresh with queue_len := len, idle_cb := hook })).1.getD fresh

/-- A producer call with typed callback `f`, argument `a`, from task context. -/
def call (f a : Nat) (to_front : Bool) : Invoke :=
  { cb := some f, mgcb := none, arg := a, from_isr := false, to_front := to_front }

/-- The producer call `pq_invoke_cb(pqh, NULL, NULL, NULL, false, false)`, the documented
way to reset the idle count. -/
def null_call : Invoke :=
  { cb := none, mgcb := none, arg := 0, from_isr := false, to_front := false }

/-- A worker with polling hook 7 that wakes up from an idle run in which `idle_count` reached
5, with an event for callback 1 and a `NULL`/`NULL` event queued. -/
def woken_state : State Unit :=
  { h := { (invokes (started 4 (some 7)) [call 1 10 false, null_call]).1 with idle_count := 5 }
    mem := ()
    trace := [] }

/-- A freshly started worker of capacity 4 with idle hook `hook`. -/
def boot_state (hook : Option Nat) : State Unit :=
  { h := started 4 hook, mem := (), trace := [] }

/-! ## Lemmas on the enqueue protocol -/

theorem handle_queue_eta (h : pq_handle) (q : Queue) (hq : h.queue = some q) :
    { h with queue := some q } = h := by
  cases h
  simp_all

theorem pq_invoke_cb_some (h : pq_handle) (q : Queue) (hq : h.queue = some q)
    (cb mgcb : Option Nat) (arg : Nat) (from_isr to_front : Bool) :
    pq_invoke_cb (some h) cb mgcb arg from_isr to_front =
      if q.items.length < q.cap then
        (some { h with queue := some { q with items :=
          if to_front then ({ cb := cb, mgcb := mgcb, arg := arg, pqh := h.addr } : pq_event) :: q.items
          else q.items ++ [({ cb := cb, mgcb := mgcb, arg := arg, pqh := h.addr } : pq_event)] } },
          true)
      else (some h, false) := by
  have he := handle_queue_eta h q hq
  by_cases hl : q.items.length < q.cap <;> cases from_isr <;> cases to_front <;>
    simp [pq_invoke_cb, hq, hl, he, xQueueSendToBack, xQueueSendToFront,
      xQueueSendToBackFromISR, xQueueSendToFrontFromISR]

theorem invoke_some (h : pq_handle) (q : Queue) (hq : h.queue = some q) (i : Invoke) :
    invoke h i =
      if q.items.length < q.cap then
        ({ h with queue := some { q with items := (if i.to_front then
            (i.event h.addr) :: q.items else q.items ++ [i.event h.addr]) } }, true)
      else (h, false) := by
  unfold invoke
  rw [pq_invoke_cb_some h q hq]
  by_cases hl : q.items.length < q.cap <;> simp [hl, Invoke.event]

theorem invoke_addr (h : pq_handle) (i : Invoke) : (invoke h i).1.addr = h.addr := by
  cases hq : h.queue with
  | none => simp [invoke, pq_invoke_cb, hq]
  | some q =>
    rw [invoke_some h q hq]
    by_cases hl : q.items.length < q.cap <;> simp [hl]

theorem invoke_idle_count (h : pq_handle) (i : Invoke) :
    (invoke h i).1.idle_count = h.idle_count := by
  cases hq : h.queue with
  | none => simp [invoke, pq_invoke_cb, hq]
  | some q =>
    rw [invoke_some h q hq]
    by_cases hl : q.items.length < q.cap <;> simp [hl]

theorem invoke_queue_isSome (h : pq_handle) (i : Invoke) (hq : h.queue ≠ none) :
    (invoke h i).1.queue ≠ none := by
  cases hq1 : h.queue with
  | none => exact absurd hq1 hq
  | some q =>
    rw [invoke_some h q hq1]
    by_cases hl : q.items.length < q.cap <;> simp [hl, hq1]

theorem invokes_queue_isSome (l : List Invoke) : ∀ (h : pq_handle), h.queue ≠ none →
    (invokes h l).1.queue ≠ none := by
  induction l with
  | nil => intro h hq; simpa [invokes] using hq
  | cons i rest ih =>
    intro h hq
    simp only [invokes]
    exact ih _ (invoke_queue_isSome h i hq)

/-- Successful tail insertions append their events, in call order. -/
theorem invokes_back (l : List Invoke) : ∀ (h : pq_handle) (q : Queue), h.queue = some q →
    (∀ i ∈ l, i.to_front = false) → (∀ b ∈ (invokes h l).2, b = true) →
    (invokes h l).1 =
      { h with queue := some { q with items := q.items ++ l.map (Invoke.event h.addr) } } := by
  induction l with
  | nil =>
    intro h q hq _ _
    simp [invokes, handle_queue_eta h q hq]
  | cons i rest ih =>
    intro h q hq hb hs
    have hi : i.to_front = false := hb i (List.mem_cons_self _ _)
    simp only [invokes, List.mem_cons, forall_eq_or_imp] at hs
    have h1 := invoke_some h q hq i
    by_cases hl : q.items.length < q.cap
    · simp only [hl, if_true, hi, Bool.false_eq_true, if_false] at h1
      have hrest := ih (invoke h i).1 { q with items := q.items ++ [i.event h.addr] }
        (by rw [h1]) (fun j hj => hb j (List.mem_cons_of_mem _ hj)) hs.2
      simp only [invokes]
      rw [hrest, h1]
      simp
    · simp only [hl, if_false] at h1
      rw [h1] at hs
      simp at hs

/-- Successful front insertions stack up at the head, the latest first. -/
theorem invokes_front (l : List Invoke) : ∀ (h : pq_handle) (q : Queue), h.queue = some q →
    (∀ i ∈ l, i.to_front = true) → (∀ b ∈ (invokes h l).2, b = true) →
    (invokes h l).1 =
      { h with queue := some { q with items := ((l.map (Invoke.event h.addr)).reverse ++
          q.items) } } := by
  induction l with
  | nil =>
    intro h q hq _ _
    simp [invokes, handle_queue_eta h q hq]
  | cons i rest ih =>
    intro h q hq hb hs
    have hi : i.to_front = true := hb i (List.mem_cons_self _ _)
    simp only [invokes, List.mem_cons, forall_eq_or_imp] at hs
    have h1 := invoke_some h q hq i
    by_cases hl : q.items.length < q.cap
    · simp only [hl, if_true, hi] at h1
      have hrest := ih (invoke h i).1 { q with items := i.event h.addr :: q.items }
        (by rw [h1]) (fun j hj => hb j (List.mem_cons_of_mem _ hj)) hs.2
      simp only [invokes]
      rw [hrest, h1]
      simp
    · simp only [hl, if_false] at h1
      rw [h1] at hs
      simp at hs

/-! ## Lemmas on the drain loop -/

theorem run_mgcb_queue {σ : Type} (env : Env σ)
    (hm : ∀ f m h a, (env.mgcb f m h a).2.queue = h.queue) (s : State σ) (e : pq_event) :
    (run_mgcb env s e).h.queue = s.h.queue := by
  unfold run_mgcb
  cases e.mgcb with
  | none => rfl
  | some m => exact hm m s.mem s.h e.arg

theorem run_mgcb_erase {σ : Type} (env : Env σ) (s : State σ) (e : pq_event) :
    (run_mgcb env s e).trace.map Call.erase =
      s.trace.map Call.erase ++
        (match e.mgcb with
          | some m => [Call.mgcb m e.arg]
          | none => []) := by
  unfold run_mgcb
  cases e.mgcb with
  | none => simp
  | some m => simp [Call.erase]

theorem run_event_quiet {σ : Type} (env : Env σ) (hq : Quiet env) (s : State σ)
    (e : pq_event) :
    (run_event env s e).h.queue = s.h.queue ∧
      (run_event env s e).trace.map Call.erase = s.trace.map Call.erase ++ expected e := by
  have h1 := run_mgcb_queue env hq.2 s e
  have h2 := run_mgcb_erase env s e
  unfold run_event expected
  cases hc : e.cb with
  | none => simp [h1, h2]
  | some c =>
    have h3 := hq.1 c (run_mgcb env s e).mem (run_mgcb env s e).h e.arg
    simp only [h3.2, if_false]
    refine ⟨by rw [h3.1, h1], ?_⟩
    simp [h2, Call.erase]

/-- With quiet callbacks the drain loop runs the queued events head first, once each, and
stops on the empty queue as soon as the budget exceeds the number of events. -/
theorem drain_quiet {σ : Type} (env : Env σ) (hq : Quiet env) (items : List pq_event) :
    ∀ (s : State σ) (cap fuel : Nat), s.h.queue = some { cap := cap, items := items } →
      items.length < fuel →
      (drain env fuel s).2 = Stop.empty ∧
      (drain env fuel s).1.h.queue = some { cap := cap, items := [] } ∧
      (drain env fuel s).1.trace.map Call.erase =
        s.trace.map Call.erase ++ items.flatMap expected := by
  induction items with
  | nil =>
    intro s cap fuel hs hf
    cases fuel with
    | zero => simp at hf
    | succ n => simp [drain, hs, xQueueReceive]
  | cons e rest ih =>
    intro s cap fuel hs hf
    cases fuel with
    | zero => simp at hf
    | succ n =>
      have hr := run_event_quiet env hq
        { s with h := { s.h with queue := some { cap := cap, items := rest } } } e
      have hi := ih (run_event env
        { s with h := { s.h with queue := some { cap := cap, items := rest } } } e) cap n
        (by rw [hr.1]) (by simpa using hf)
      simp only [drain, hs, xQueueReceive]
      refine ⟨hi.1, hi.2.1, ?_⟩
      rw [hi.2.2, hr.2]
      simp

/-! ## Lemmas on `pq_start` -/

theorem pq_start_fresh (h : pq_handle) (hq : h.queue = none) (ht : h.task = none) (t : Nat) :
    pq_start true (some t) (some h) =
      (some { h with
          queue_len := (if h.queue_len = 0 then MGOS_TASK_QUEUE_LENGTH else h.queue_len)
          stack_size := (if h.stack_size = 0 then
            MGOS_TASK_STACK_SIZE_BYTES / MGOS_TASK_STACK_SIZE_UNIT else h.stack_size)
          queue := some { cap := (if h.queue_len = 0 then MGOS_TASK_QUEUE_LENGTH
            else h.queue_len), items := [] }
          task := some t }, true) := by
  by_cases h1 : h.queue_len = 0 <;> by_cases h2 : h.stack_size = 0 <;>
    simp [pq_start, hq, ht, h1, h2, xQueueCreate, xTaskCreate, MGOS_TASK_QUEUE_LENGTH]

theorem pq_start_again (h : pq_handle) (hq : h.queue ≠ none) (alloc_ok : Bool)
    (spawn : Option Nat) : pq_start alloc_ok spawn (some h) = (some h, false) := by
  simp [pq_start, hq]

/-! ## Lemmas on the idle loop -/

theorem producers_nil {σ : Type} (s : State σ) : producers [] s = s := by
  cases s
  simp [producers, invokes]

theorem ready_empty (h : pq_handle) (cap : Nat)
    (hq : h.queue = some { cap := cap, items := [] }) : ready h = some false := by
  simp [ready, hq]

/-- Blocked in `xQueuePeek(..., portMAX_DELAY)` on an empty queue, the worker stays blocked,
unchanged, for as long as no producer enqueues. -/
theorem peek_forever_empty {σ : Type} (n : Nat) : ∀ (s : State σ) (cap : Nat),
    s.h.queue = some { cap := cap, items := [] } →
    xQueuePeekForever (List.replicate n ([] : List Invoke)) s = (s, Stop.parked, []) := by
  induction n with
  | zero =>
    intro s cap hq
    simp [xQueuePeekForever, ready_empty s.h cap hq]
  | succ k ih =>
    intro s cap hq
    rw [List.replicate_succ, xQueuePeekForever]
    simp only [ready_empty s.h cap hq, producers_nil]
    exact ih s cap hq

/-- One turn of the idle loop when the hook returns false, leaves the handle alone, and the
timed wait elapses with no event. -/
theorem idle_loop_false_step {σ : Type} (env : Env σ) (f : Nat) (s : State σ) (cap : Nat)
    (rest : List (List Invoke))
    (hq : s.h.queue = some { cap := cap, items := [] }) (hf : s.h.idle_cb = some f)
    (hi : s.h.idle_interval_ms ≠ PQ_MS_FOREVER)
    (hh : (env.cb f s.mem s.h s.h.idle_cb_arg).2.1 = s.h)
    (hr : (env.cb f s.mem s.h s.h.idle_cb_arg).2.2 = 0) :
    idle_loop env ([] :: rest) s =
      idle_loop env rest
        { h := { s.h with idle_count := (s.h.idle_count + 1) % 2 ^ env.size_bits }
          mem := (env.cb f s.mem s.h s.h.idle_cb_arg).1
          trace := s.trace ++ [Call.idle f s.h.idle_cb_arg s.h.idle_count] } := by
  have ht : ∃ t, PQ_MS_TO_TICKS env.pdMS_TO_TICKS s.h.idle_interval_ms = some t := by
    unfold PQ_MS_TO_TICKS
    by_cases h1 : s.h.idle_interval_ms = PQ_MS_SINGLE_TICK
    · exact ⟨1, by simp [h1]⟩
    · exact ⟨env.pdMS_TO_TICKS s.h.idle_interval_ms, by simp [h1, hi]⟩
  obtain ⟨t, ht⟩ := ht
  rw [idle_loop]
  simp only [hf, hh, hr, ne_eq, not_true_eq_false, if_false, producers_nil, ready, hq, ht,
    Option.map_some', List.isEmpty_nil, Bool.not_true]

/-- The same turn when the script ends during the timed wait. -/
theorem idle_loop_false_last {σ : Type} (env : Env σ) (f : Nat) (s : State σ) (cap : Nat)
    (hq : s.h.queue = some { cap := cap, items := [] }) (hf : s.h.idle_cb = some f)
    (hh : (env.cb f s.mem s.h s.h.idle_cb_arg).2.1 = s.h)
    (hr : (env.cb f s.mem s.h s.h.idle_cb_arg).2.2 = 0) :
    idle_loop env [] s =
      ({ h := { s.h with idle_count := (s.h.idle_count + 1) % 2 ^ env.size_bits }
         mem := (env.cb f s.mem s.h s.h.idle_cb_arg).1
         trace := s.trace ++ [Call.idle f s.h.idle_cb_arg s.h.idle_count] }, Stop.parked, []) := by
  rw [idle_loop]
  simp only [hf, hh, hr, ne_eq, not_true_eq_false, if_false, ready, hq,
    Option.map_some', List.isEmpty_nil, Bool.not_true]

/-- The turn of the idle loop in which the hook returns true and leaves the handle alone. -/
theorem idle_loop_true {σ : Type} (env : Env σ) (f : Nat) (s : State σ)
    (ws : List (List Invoke)) (hf : s.h.idle_cb = some f)
    (hh : (env.cb f s.mem s.h s.h.idle_cb_arg).2.1 = s.h)
    (hr : (env.cb f s.mem s.h s.h.idle_cb_arg).2.2 ≠ 0) :
    idle_loop env ws s =
      xQueuePeekForever ws
        { h := s.h
          mem := (env.cb f s.mem s.h s.h.idle_cb_arg).1
          trace := s.trace ++ [Call.idle f s.h.idle_cb_arg s.h.idle_count] } := by
  rw [idle_loop]
  simp only [hf, hh, hr, ne_eq, not_false_eq_true, if_true]

/-- A hook that always returns false and leaves the handle alone is called once per elapsed
wait, and the `k`-th call after the first reads the counter advanced `k` times modulo
`2 ^ size_bits`. -/
theorem idle_loop_polling {σ : Type} (env : Env σ) (f : Nat)
    (hk : ∀ m h a, (env.cb f m h a).2.1 = h ∧ (env.cb f m h a).2.2 = 0) (n : Nat) :
    ∀ (s : State σ) (cap : Nat), s.h.queue = some { cap := cap, items := [] } →
      s.h.idle_cb = some f → s.h.idle_interval_ms ≠ PQ_MS_FOREVER →
      s.h.idle_count < 2 ^ env.size_bits →
      (idle_loop env (List.replicate n []) s).2.1 = Stop.parked ∧
      (idle_loop env (List.replicate n []) s).1.trace =
        s.trace ++ (List.range (n + 1)).map
          (fun k => Call.idle f s.h.idle_cb_arg ((s.h.idle_count + k) % 2 ^ env.size_bits)) := by
  induction n with
  | zero =>
    intro s cap hq hf _ hc
    rw [List.replicate_zero, idle_loop_false_last env f s cap hq hf
      (hk s.mem s.h s.h.idle_cb_arg).1 (hk s.mem s.h s.h.idle_cb_arg).2]
    simp [List.range_succ, Nat.mod_eq_of_lt hc]
  | succ k ih =>
    intro s cap hq hf hi hc
    rw [List.replicate_succ, idle_loop_false_step env f s cap _ hq hf hi
      (hk s.mem s.h s.h.idle_cb_arg).1 (hk s.mem s.h s.h.idle_cb_arg).2]
    have hpos : 0 < 2 ^ env.size_bits := Nat.pow_pos (by decide)
    have h2 := ih
      { h := { s.h with idle_count := (s.h.idle_count + 1) % 2 ^ env.size_bits }
        mem := (env.cb f s.mem s.h s.h.idle_cb_arg).1
        trace := s.trace ++ [Call.idle f s.h.idle_cb_arg s.h.idle_count] }
      cap hq hf hi (Nat.mod_lt _ hpos)
    refine ⟨h2.1, ?_⟩
    rw [h2.2, List.range_succ_eq_map (k + 1)]
    simp only [List.map_cons, List.map_map, List.append_assoc, List.singleton_append,
      Nat.add_zero, Nat.mod_eq_of_lt hc]
    congr 2
    apply List.map_congr_left
    intro j _
    simp only [Function.comp, Nat.mod_add_mod]
    congr 2
    omega

/-- When the drain loop stops on the empty queue, the queue is there and empty. -/
theorem drain_empty_queue {σ : Type} (env : Env σ) (fuel : Nat) : ∀ (s : State σ),
    (drain env fuel s).2 = Stop.empty →
    ∃ cap, (drain env fuel s).1.h.queue = some { cap := cap, items := [] } := by
  induction fuel with
  | zero => intro s h; simp [drain] at h
  | succ n ih =>
    intro s h
    rw [drain] at h ⊢
    cases hq : s.h.queue with
    | none => simp [hq] at h
    | some q =>
      obtain ⟨cap, items⟩ := q
      cases items with
      | nil => exact ⟨cap, by simp [hq, xQueueReceive]⟩
      | cons e rest =>
        simp only [hq, xQueueReceive] at h ⊢
        exact ih _ h

theorem getD_invoke_idle_count (h : pq_handle) (cb mgcb : Option Nat) (arg : Nat)
    (from_isr to_front : Bool) :
    ((pq_invoke_cb (some h) cb mgcb arg from_isr to_front).1.getD h).idle_count =
      h.idle_count :=
  invoke_idle_count h
    { cb := cb, mgcb := mgcb, arg := arg, from_isr := from_isr, to_front := to_front }

theorem run_mgcb_idle_count {σ : Type} (env : Env σ) (hk : KeepsIdleCount env) (s : State σ)
    (e : pq_event) : (run_mgcb env s e).h.idle_count = s.h.idle_count := by
  unfold run_mgcb
  cases e.mgcb with
  | none => rfl
  | some m => exact hk.2 m s.mem s.h e.arg

theorem run_mgcb_trace {σ : Type} (env : Env σ) (s : State σ) (e : pq_event) :
    (run_mgcb env s e).trace =
      s.trace ++
        (match e.mgcb with
          | some m => [Call.mgcb m e.arg]
          | none => []) := by
  unfold run_mgcb
  cases e.mgcb with
  | none => simp
  | some m => simp

theorem run_event_trace {σ : Type} (env : Env σ) (s : State σ) (e : pq_event) :
    (run_event env s e).trace =
      (run_mgcb env s e).trace ++
        (match e.cb with
          | some c => [Call.cb c e.arg (run_mgcb env s e).h.idle_count]
          | none => []) := by
  unfold run_event
  cases e.cb with
  | none => simp
  | some c =>
    simp only
    split <;> rfl

theorem run_event_idle_count {σ : Type} (env : Env σ) (hk : KeepsIdleCount env)
    (s : State σ) (e : pq_event) : (run_event env s e).h.idle_count = s.h.idle_count := by
  have h1 := run_mgcb_idle_count env hk s e
  unfold run_event
  cases e.cb with
  | none => exact h1
  | some c =>
    have h2 := hk.1 c (run_mgcb env s e).mem (run_mgcb env s e).h e.arg
    simp only
    split
    · simp only [getD_invoke_idle_count]
      rw [h2, h1]
    · simp only
      rw [h2, h1]

/-- The drain loop never writes `idle_count`: if the callbacks do not either, every typed
callback it runs reads the value the field had when the drain phase began. -/
theorem drain_idle_count {σ : Type} (env : Env σ) (hk : KeepsIdleCount env) (fuel : Nat) :
    ∀ (s : State σ), (drain env fuel s).1.h.idle_count = s.h.idle_count ∧
      ∃ t, (drain env fuel s).1.trace = s.trace ++ t ∧
        ∀ f a i, Call.cb f a i ∈ t → i = s.h.idle_count := by
  induction fuel with
  | zero => intro s; exact ⟨rfl, [], by simp [drain], by simp⟩
  | succ n ih =>
    intro s
    rw [drain]
    cases hq : s.h.queue with
    | none => exact ⟨rfl, [], by simp, by simp⟩
    | some q =>
      obtain ⟨cap, items⟩ := q
      cases items with
      | nil => exact ⟨rfl, [], by simp [xQueueReceive], by simp⟩
      | cons e rest =>
        simp only [xQueueReceive]
        have h1 := run_event_idle_count env hk
          { s with h := { s.h with queue := some { cap := cap, items := rest } } } e
        have h2 := run_event_trace env
          { s with h := { s.h with queue := some { cap := cap, items := rest } } } e
        have h3 := run_mgcb_trace env
          { s with h := { s.h with queue := some { cap := cap, items := rest } } } e
        have h4 := run_mgcb_idle_count env hk
          { s with h := { s.h with queue := some { cap := cap, items := rest } } } e
        obtain ⟨h5, t, h6, h7⟩ := ih (run_event env
          { s with h := { s.h with queue := some { cap := cap, items := rest } } } e)
        refine ⟨by rw [h5, h1], _, by rw [h6, h2, h3, List.append_assoc, List.append_assoc], ?_⟩
        intro f a i hm
        simp only [List.mem_append] at hm
        rcases hm with hm | hm | hm
        · cases hmg : e.mgcb <;> simp [hmg] at hm
        · cases hcb : e.cb with
          | none => simp [hcb] at hm
          | some c =>
            simp only [hcb, List.mem_singleton, Call.cb.injEq] at hm
            rw [hm.2.2, h4]
        · rw [h7 f a i hm, h1]

/-! ## Lemmas on the automatic re-enqueue -/

theorem run_event_repeat {σ : Type} (env : Env σ) (s : State σ) (e : pq_event) (c : Nat)
    (q : Queue) (hc : e.cb = some c)
    (hr : (env.cb c (run_mgcb env s e).mem (run_mgcb env s e).h e.arg).2.2 = 0)
    (hq : (env.cb c (run_mgcb env s e).mem (run_mgcb env s e).h e.arg).2.1.queue = some q)
    (hl : q.items.length < q.cap) :
    (run_event env s e).h =
      { (env.cb c (run_mgcb env s e).mem (run_mgcb env s e).h e.arg).2.1 with
        queue := some { q with items := q.items ++
          [({ cb := some c, mgcb := none, arg := e.arg,
              pqh := (env.cb c (run_mgcb env s e).mem (run_mgcb env s e).h e.arg).2.1.addr } :
            pq_event)] } } := by
  unfold run_event
  simp only [hc, hr, if_true]
  rw [pq_invoke_cb_some _ q hq]
  simp [hl]

theorem run_event_repeat_full {σ : Type} (env : Env σ) (s : State σ) (e : pq_event) (c : Nat)
    (q : Queue) (hc : e.cb = some c)
    (hr : (env.cb c (run_mgcb env s e).mem (run_mgcb env s e).h e.arg).2.2 = 0)
    (hq : (env.cb c (run_mgcb env s e).mem (run_mgcb env s e).h e.arg).2.1.queue = some q)
    (hl : ¬ q.items.length < q.cap) :
    (run_event env s e).h =
      (env.cb c (run_mgcb env s e).mem (run_mgcb env s e).h e.arg).2.1 := by
  unfold run_event
  simp only [hc, hr, if_true]
  rw [pq_invoke_cb_some _ q hq]
  simp [hl]

theorem run_event_done {σ : Type} (env : Env σ) (s : State σ) (e : pq_event) (c : Nat)
    (hc : e.cb = some c)
    (hr : (env.cb c (run_mgcb env s e).mem (run_mgcb env s e).h e.arg).2.2 ≠ 0) :
    (run_event env s e).h =
      (env.cb c (run_mgcb env s e).mem (run_mgcb env s e).h e.arg).2.1 := by
  unfold run_event
  simp only [hc, hr, if_false]

/-- Running an event keeps the queue free of legacy callbacks when the callbacks do not
touch the queue: what `pq_task` re-enqueues has the legacy slot cleared. -/
theorem run_event_mgcb_free {σ : Type} (env : Env σ) (hk : KeepsQueue env) (s : State σ)
    (e : pq_event) (q : Queue) (hq : s.h.queue = some q)
    (hn : ∀ x ∈ q.items, x.mgcb = none) :
    ∃ q1, (run_event env s e).h.queue = some q1 ∧ ∀ x ∈ q1.items, x.mgcb = none := by
  have h1 := run_mgcb_queue env hk.2 s e
  cases hc : e.cb with
  | none =>
    refine ⟨q, ?_, hn⟩
    unfold run_event
    simp only [hc]
    rw [h1, hq]
  | some c =>
    have h2 := hk.1 c (run_mgcb env s e).mem (run_mgcb env s e).h e.arg
    rw [h1, hq] at h2
    by_cases hr : (env.cb c (run_mgcb env s e).mem (run_mgcb env s e).h e.arg).2.2 = 0
    · by_cases hl : q.items.length < q.cap
      · rw [run_event_repeat env s e c q hc hr h2 hl]
        refine ⟨_, rfl, ?_⟩
        intro x hx
        simp only [List.mem_append, List.mem_singleton] at hx
        rcases hx with hx | hx
        · exact hn x hx
        · rw [hx]
      · rw [run_event_repeat_full env s e c q hc hr h2 hl]
        exact ⟨q, h2, hn⟩
    · rw [run_event_done env s e c hc hr]
      exact ⟨q, h2, hn⟩

/-- From a queue free of legacy callbacks the drain loop never calls one, however long it
runs. -/
theorem drain_no_mgcb {σ : Type} (env : Env σ) (hk : KeepsQueue env) (fuel : Nat) :
    ∀ (s : State σ) (q : Queue), s.h.queue = some q → (∀ x ∈ q.items, x.mgcb = none) →
      ∃ t, (drain env fuel s).1.trace = s.trace ++ t ∧ ∀ x ∈ t, Call.isMgcb x = false := by
  induction fuel with
  | zero => intro s q _ _; exact ⟨[], by simp [drain], by simp⟩
  | succ n ih =>
    intro s q hq hn
    rw [drain]
    obtain ⟨cap, items⟩ := q
    cases items with
    | nil => exact ⟨[], by simp [hq, xQueueReceive], by simp⟩
    | cons e rest =>
      simp only [hq, xQueueReceive]
      have he : e.mgcb = none := hn e (List.mem_cons_self _ _)
      obtain ⟨q1, hq1, hn1⟩ := run_event_mgcb_free env hk
        { s with h := { s.h with queue := some { cap := cap, items := rest } } } e
        { cap := cap, items := rest } rfl (fun x hx => hn x (List.mem_cons_of_mem _ hx))
      obtain ⟨t, ht, hno⟩ := ih _ q1 hq1 hn1
      have h2 := run_event_trace env
        { s with h := { s.h with queue := some { cap := cap, items := rest } } } e
      have h3 := run_mgcb_trace env
        { s with h := { s.h with queue := some { cap := cap, items := rest } } } e
      simp only [he, List.append_nil] at h3
      refine ⟨_, by rw [ht, h2, h3, List.append_assoc], ?_⟩
      intro x hx
      simp only [List.mem_append] at hx
      rcases hx with hx | hx
      · cases hcb : e.cb with
        | none => simp [hcb] at hx
        | some c =>
          simp only [hcb, List.mem_singleton] at hx
          rw [hx]
          rfl
      · exact hno x hx

/-- Waiting in `xQueuePeek` calls nothing. -/
theorem peek_forever_trace {σ : Type} (ws : List (List Invoke)) : ∀ (s : State σ),
    (xQueuePeekForever ws s).1.trace = s.trace := by
  induction ws with
  | nil =>
    intro s
    rw [xQueuePeekForever]
    split
    · rfl
    · rfl
    · rfl
  | cons w rest ih =>
    intro s
    rw [xQueuePeekForever]
    split
    · rfl
    · rfl
    · exact ih (producers w s)

/-- The idle loop only appends to the trace, and with a hook configured the first thing it
appends is a call of the hook on the handle as it stands. -/
theorem idle_loop_trace {σ : Type} (env : Env σ) (ws : List (List Invoke)) :
    ∀ (s : State σ), ∃ t, (idle_loop env ws s).1.trace =
      s.trace ++
        (match s.h.idle_cb with
          | some f => [Call.idle f s.h.idle_cb_arg s.h.idle_count]
          | none => []) ++ t := by
  induction ws with
  | nil =>
    intro s
    rw [idle_loop]
    cases hf : s.h.idle_cb with
    | none => exact ⟨[], by simp [peek_forever_trace]⟩
    | some f =>
      simp only
      split
      · exact ⟨[], by simp [peek_forever_trace]⟩
      · split
        · exact ⟨[], by simp⟩
        · exact ⟨[], by simp⟩
        · exact ⟨[], by simp⟩
  | cons w rest ih =>
    intro s
    rw [idle_loop]
    cases hf : s.h.idle_cb with
    | none => exact ⟨[], by simp [peek_forever_trace]⟩
    | some f =>
      simp only
      split
      · exact ⟨[], by simp [peek_forever_trace]⟩
      · split
        · exact ⟨[], by simp⟩
        · exact ⟨[], by simp⟩
        · split
          · exact ⟨[], by simp [peek_forever_trace, producers]⟩
          · split
            · exact ⟨[], by simp [producers]⟩
            · exact ⟨[], by simp [producers]⟩
            · obtain ⟨t, ht⟩ := ih (producers w
                { h := { (env.cb f s.mem s.h s.h.idle_cb_arg).2.1 with
                    idle_count := ((env.cb f s.mem s.h s.h.idle_cb_arg).2.1.idle_count + 1) %
                      2 ^ env.size_bits }
                  mem := (env.cb f s.mem s.h s.h.idle_cb_arg).1
                  trace := s.trace ++ [Call.idle f s.h.idle_cb_arg s.h.idle_count] })
              exact ⟨_, by rw [ht]; simp [producers]; rfl⟩

/-- A producer call on the empty queue of positive capacity leaves an event waiting. -/
theorem ready_after_arrival {σ : Type} (s : State σ) (cap : Nat) (i : Invoke)
    (hq : s.h.queue = some { cap := cap, items := [] }) (hc : 0 < cap) :
    ready (producers [i] s).h = some true := by
  simp only [producers, invokes]
  rw [invoke_some s.h _ hq]
  cases i.to_front <;> simp [hc, ready]

/-- Blocked in `xQueuePeek(..., portMAX_DELAY)`, the worker is woken by the first producer
call. -/
theorem peek_forever_arrival {σ : Type} (n : Nat) : ∀ (s : State σ) (cap : Nat) (i : Invoke)
    (rest : List (List Invoke)), s.h.queue = some { cap := cap, items := [] } → 0 < cap →
    xQueuePeekForever (List.replicate n ([] : List Invoke) ++ [i] :: rest) s =
      (producers [i] s, Stop.woken, rest) := by
  induction n with
  | zero =>
    intro s cap i rest hq hc
    rw [List.replicate_zero, List.nil_append, xQueuePeekForever]
    simp only [ready_empty s.h cap hq]
    cases rest <;> rw [xQueuePeekForever] <;> simp only [ready_after_arrival s cap i hq hc]
  | succ k ih =>
    intro s cap i rest hq hc
    rw [List.replicate_succ, List.cons_append, xQueuePeekForever]
    simp only [ready_empty s.h cap hq, producers_nil]
    exact ih s cap i rest hq hc

/-- With a hook that returns false exactly while `idle_count < 2` and leaves the handle
alone, the idle phase on an empty queue calls the hook three times, two waits elapsing in
between, and then blocks in the untimed peek. -/
theorem idle_phase_threshold {σ : Type} (env : Env σ) (f : Nat)
    (hk : ∀ m h a, (env.cb f m h a).2.1 = h ∧ ((env.cb f m h a).2.2 = 0 ↔ h.idle_count < 2))
    (hw : 2 ≤ env.size_bits) (s : State σ) (cap : Nat)
    (hq : s.h.queue = some { cap := cap, items := [] }) (hf : s.h.idle_cb = some f)
    (hi : s.h.idle_interval_ms ≠ PQ_MS_FOREVER) (ws : List (List Invoke)) :
    ∃ m3, idle_phase env ([] :: [] :: ws) s =
      xQueuePeekForever ws
        { h := { s.h with idle_count := 2 }
          mem := m3
          trace := s.trace ++ [Call.idle f s.h.idle_cb_arg 0, Call.idle f s.h.idle_cb_arg 1,
            Call.idle f s.h.idle_cb_arg 2] } := by
  have hM : 4 ≤ 2 ^ env.size_bits := by
    calc 4 = 2 ^ 2 := by norm_num
      _ ≤ 2 ^ env.size_bits := Nat.pow_le_pow_right (by decide) hw
  have h1 : (0 + 1) % 2 ^ env.size_bits = 1 := Nat.mod_eq_of_lt (by omega)
  have h2 : (1 + 1) % 2 ^ env.size_bits = 2 := Nat.mod_eq_of_lt (by omega)
  have hfalse : ∀ m (h : pq_handle) a, h.idle_count < 2 → (env.cb f m h a).2.2 = 0 :=
    fun m h a hc => (hk m h a).2.2 hc
  have htrue : ∀ m (h : pq_handle) a, ¬ h.idle_count < 2 → (env.cb f m h a).2.2 ≠ 0 :=
    fun m h a hc hz => hc ((hk m h a).2.1 hz)
  unfold idle_phase
  rw [idle_loop_false_step env f _ cap]
  rotate_left
  · exact hq
  · exact hf
  · exact hi
  · exact (hk _ _ _).1
  · exact hfalse _ _ _ (by simp)
  simp only [h1]
  rw [idle_loop_false_step env f _ cap]
  rotate_left
  · exact hq
  · exact hf
  · exact hi
  · exact (hk _ _ _).1
  · exact hfalse _ _ _ (by simp)
  simp only [h2]
  rw [idle_loop_true env f]
  rotate_left
  · exact hf
  · exact (hk _ _ _).1
  · exact htrue _ _ _ (by simp)
  apply Exists.intro
  simp only [List.append_assoc, List.cons_append, List.nil_append]
  rfl

/-- The polling lemma for a whole idle phase: the counter starts from zero. -/
theorem idle_phase_polling {σ : Type} (env : Env σ) (f : Nat)
    (hk : ∀ m h a, (env.cb f m h a).2.1 = h ∧ (env.cb f m h a).2.2 = 0) (n : Nat)
    (s : State σ) (cap : Nat) (hq : s.h.queue = some { cap := cap, items := [] })
    (hf : s.h.idle_cb = some f) (hi : s.h.idle_interval_ms ≠ PQ_MS_FOREVER) :
    (idle_phase env (List.replicate n []) s).2.1 = Stop.parked ∧
    (idle_phase env (List.replicate n []) s).1.trace =
      s.trace ++ (List.range (n + 1)).map
        (fun k => Call.idle f s.h.idle_cb_arg (k % 2 ^ env.size_bits)) := by
  have hp := idle_loop_polling env f hk n { s with h := { s.h with idle_count := 0 } } cap
    hq hf hi (Nat.pow_pos (by decide))
  simp only [Nat.zero_add] at hp
  exact hp

/-! ## Lemmas on a hook that returns false for a while -/

theorem polls_succ {σ : Type} (env : Env σ) (f : Nat) (k : Nat) : ∀ (s : State σ),
    polls env f (k + 1) s = poll env f (polls env f k s) := by
  induction k with
  | zero => intro s; rfl
  | succ j ih =>
    intro s
    show polls env f (j + 1) (poll env f s) = poll env f (polls env f j (poll env f s))
    exact ih (poll env f s)

theorem polls_h {σ : Type} (env : Env σ) (f : Nat) (k : Nat) : ∀ (s : State σ),
    s.h.idle_count < 2 ^ env.size_bits →
    (polls env f k s).h =
      { s.h with idle_count := (s.h.idle_count + k) % 2 ^ env.size_bits } := by
  induction k with
  | zero =>
    intro s hc
    simp only [polls, Nat.add_zero, Nat.mod_eq_of_lt hc]
  | succ j ih =>
    intro s _
    have hpos : 0 < 2 ^ env.size_bits := Nat.pow_pos (by decide)
    show (polls env f j (poll env f s)).h = _
    rw [ih (poll env f s) (Nat.mod_lt _ hpos)]
    simp only [poll, Nat.mod_add_mod, Nat.add_assoc, Nat.add_comm 1 j]

theorem polls_trace {σ : Type} (env : Env σ) (f : Nat) (k : Nat) : ∀ (s : State σ),
    s.h.idle_count < 2 ^ env.size_bits →
    (polls env f k s).trace =
      s.trace ++ (List.range k).map
        (fun j => Call.idle f s.h.idle_cb_arg ((s.h.idle_count + j) % 2 ^ env.size_bits)) := by
  induction k with
  | zero => intro s _; simp [polls]
  | succ j ih =>
    intro s hc
    rw [polls_succ, poll, ih s hc, polls_h env f j s hc, List.range_succ]
    simp

/-- While the hook returns false, leaving the handle alone, and the waits elapse, the idle
loop goes from turn to turn. -/
theorem idle_loop_polls {σ : Type} (env : Env σ) (f : Nat) (n : Nat) :
    ∀ (s : State σ) (cap : Nat) (rest : List (List Invoke)),
      s.h.queue = some { cap := cap, items := [] } → s.h.idle_cb = some f →
      s.h.idle_interval_ms ≠ PQ_MS_FOREVER → FirstCallsFalse env f n s →
      idle_loop env (List.replicate n [] ++ rest) s = idle_loop env rest (polls env f n s) := by
  induction n with
  | zero => intro s cap rest _ _ _ _; rfl
  | succ j ih =>
    intro s cap rest hq hf hi hfc
    have h0 := hfc 0 (Nat.succ_pos j)
    rw [List.replicate_succ, List.cons_append,
      idle_loop_false_step env f s cap _ hq hf hi h0.1 h0.2]
    exact ih (poll env f s) cap rest hq hf hi
      (fun k hk => hfc (k + 1) (Nat.succ_lt_succ hk))

/-- The drain loop only appends to the trace. -/
theorem drain_trace_extends {σ : Type} (env : Env σ) (fuel : Nat) : ∀ (s : State σ),
    ∃ t, (drain env fuel s).1.trace = s.trace ++ t := by
  induction fuel with
  | zero => intro s; exact ⟨[], by simp [drain]⟩
  | succ n ih =>
    intro s
    rw [drain]
    cases hq : s.h.queue with
    | none => exact ⟨[], by simp⟩
    | some q =>
      obtain ⟨cap, items⟩ := q
      cases items with
      | nil => exact ⟨[], by simp [xQueueReceive]⟩
      | cons e rest =>
        simp only [xQueueReceive]
        obtain ⟨t, ht⟩ := ih (run_event env
          { s with h := { s.h with queue := some { cap := cap, items := rest } } } e)
        exact ⟨_, by
          rw [ht, run_event_trace, run_mgcb_trace, List.append_assoc, List.append_assoc]⟩

/-- The idle phase only appends to the trace. -/
theorem idle_phase_trace_extends {σ : Type} (env : Env σ) (ws : List (List Invoke))
    (s : State σ) : ∃ t, (idle_phase env ws s).1.trace = s.trace ++ t := by
  obtain ⟨t, ht⟩ := idle_loop_trace env ws { s with h := { s.h with idle_count := 0 } }
  exact ⟨_, by
    unfold idle_phase
    rw [ht, List.append_assoc]⟩

/-- The worker only appends to the trace. -/
theorem pq_task_trace_extends {σ : Type} (env : Env σ) (fuel rounds : Nat) :
    ∀ (ws : List (List Invoke)) (s : State σ),
      ∃ t, (pq_task env fuel rounds ws s).1.trace = s.trace ++ t := by
  induction rounds with
  | zero => intro ws s; exact ⟨[], by simp [pq_task]⟩
  | succ r ih =>
    intro ws s
    obtain ⟨t1, h1⟩ := drain_trace_extends env fuel s
    rw [pq_task]
    rcases hd : drain env fuel s with ⟨s1, st⟩
    rw [hd] at h1
    simp only at h1
    cases st with
    | empty =>
      obtain ⟨t2, h2⟩ := idle_phase_trace_extends env ws s1
      rcases hi : idle_phase env ws s1 with ⟨s2, st2, rest⟩
      rw [hi] at h2
      simp only at h2
      cases st2 with
      | woken =>
        obtain ⟨t3, h3⟩ := ih rest s2
        exact ⟨t1 ++ (t2 ++ t3), by simp only [hi, h3, h2, h1, List.append_assoc]⟩
      | empty => exact ⟨t1 ++ t2, by simp only [hi, h2, h1, List.append_assoc]⟩
      | parked => exact ⟨t1 ++ t2, by simp only [hi, h2, h1, List.append_assoc]⟩
      | fuel => exact ⟨t1 ++ t2, by simp only [hi, h2, h1, List.append_assoc]⟩
      | fault => exact ⟨t1 ++ t2, by simp only [hi, h2, h1, List.append_assoc]⟩
    | woken => exact ⟨t1, h1⟩
    | parked => exact ⟨t1, h1⟩
    | fuel => exact ⟨t1, h1⟩
    | fault => exact ⟨t1, h1⟩

/-- While the first `n` calls of the hook return false and leave the handle alone and the
first `n` waits elapse, the idle loop calls the hook `n + 1` times in a row, each call
reading the counter advanced once more, whatever happens afterwards. -/
theorem idle_loop_polls_trace {σ : Type} (env : Env σ) (f n : Nat) (s : State σ) (cap : Nat)
    (rest : List (List Invoke)) (hq : s.h.queue = some { cap := cap, items := [] })
    (hf : s.h.idle_cb = some f) (hi : s.h.idle_interval_ms ≠ PQ_MS_FOREVER)
    (hc : s.h.idle_count < 2 ^ env.size_bits) (hfc : FirstCallsFalse env f n s) :
    ∃ t, (idle_loop env (List.replicate n [] ++ rest) s).1.trace =
      s.trace ++ (List.range (n + 1)).map
        (fun k => Call.idle f s.h.idle_cb_arg ((s.h.idle_count + k) % 2 ^ env.size_bits)) ++
        t := by
  have hl := idle_loop_polls env f n s cap rest hq hf hi hfc
  have hh := polls_h env f n s hc
  have htr := polls_trace env f n s hc
  obtain ⟨t1, ht1⟩ := idle_loop_trace env rest (polls env f n s)
  have hcb : (polls env f n s).h.idle_cb = some f := by rw [hh]; exact hf
  rw [hcb] at ht1
  simp only at ht1
  rw [hh, htr] at ht1
  refine ⟨t1, ?_⟩
  rw [hl, ht1, List.range_succ]
  simp

/-- The same for the worker as a whole, from the end of a drain phase on. -/
theorem pq_task_polls {σ : Type} (env : Env σ) (f fuel r n : Nat) (s0 s : State σ)
    (hd : drain env fuel s0 = (s, Stop.empty)) (hf : s.h.idle_cb = some f)
    (hi : s.h.idle_interval_ms ≠ PQ_MS_FOREVER)
    (hfc : FirstCallsFalse env f n { s with h := { s.h with idle_count := 0 } })
    (rest : List (List Invoke)) :
    ∃ t, (pq_task env fuel (r + 1) (List.replicate n [] ++ rest) s0).1.trace =
      s.trace ++ (List.range (n + 1)).map
        (fun k => Call.idle f s.h.idle_cb_arg (k % 2 ^ env.size_bits)) ++ t := by
  obtain ⟨cap, hq⟩ := drain_empty_queue env fuel s0 (by rw [hd])
  rw [hd] at hq
  obtain ⟨t2, hp⟩ := idle_loop_polls_trace env f n
    { s with h := { s.h with idle_count := 0 } } cap rest hq hf hi
    (Nat.pow_pos (by decide)) hfc
  simp only [Nat.zero_add] at hp
  have ht2 : (idle_phase env (List.replicate n [] ++ rest) s).1.trace =
      s.trace ++ (List.range (n + 1)).map
        (fun k => Call.idle f s.h.idle_cb_arg (k % 2 ^ env.size_bits)) ++ t2 := hp
  rw [pq_task, hd]
  simp only
  rcases hx : idle_phase env (List.replicate n [] ++ rest) s with ⟨s2, st2, rest2⟩
  rw [hx] at ht2
  simp only at ht2
  cases st2 with
  | woken =>
    obtain ⟨t3, ht3⟩ := pq_task_trace_extends env fuel r rest2 s2
    exact ⟨t2 ++ t3, by simp only [ht3, ht2, List.append_assoc]⟩
  | empty => exact ⟨t2, by simp only [ht2]⟩
  | parked => exact ⟨t2, by simp only [ht2]⟩
  | fuel => exact ⟨t2, by simp only [ht2]⟩
  | fault => exact ⟨t2, by simp only [ht2]⟩

/-! ## Facts about the concrete scenarios -/

theorem quiet_env_quiet : Quiet quiet_env :=
  ⟨fun _ _ _ _ => ⟨rfl, Int.one_ne_zero⟩, fun _ _ _ _ => rfl⟩

theorem quiet_env_keeps_idle_count : KeepsIdleCount quiet_env :=
  ⟨fun _ _ _ _ => rfl, fun _ _ _ _ => rfl⟩

theorem repeat_env_keeps_queue : KeepsQueue repeat_env :=
  ⟨fun _ _ _ _ => rfl, fun _ _ _ _ => rfl⟩

theorem pq_start_true (h hs : pq_handle) (alloc_ok : Bool) (spawn : Option Nat)
    (hst : pq_start alloc_ok spawn (some h) = (some hs, true)) :
    hs.queue = some { cap := (if h.queue_len = 0 then MGOS_TASK_QUEUE_LENGTH
      else h.queue_len), items := [] } := by
  cases hq : h.queue with
  | some q => simp [pq_start, hq] at hst
  | none =>
    cases ht : h.task with
    | some t => simp [pq_start, hq, ht] at hst
    | none =>
      cases spawn with
      | none =>
        unfold pq_start at hst
        simp only [hq, ht, xTaskCreate] at hst
        split at hst <;> simp at hst
      | some t =>
        cases alloc_ok with
        | false => simp [pq_start, hq, ht, xQueueCreate] at hst
        | true =>
          rw [pq_start_fresh h hq ht t] at hst
          simp only [Prod.mk.injEq, Option.some.injEq, and_true] at hst
          rw [← hst]

/-! ## The claims -/

/-- C1: on a started handle with an empty FIFO, after any sequence of successful tail
insertions (`to_front = false`), with callbacks that return true and enqueue nothing, one
drain phase of `pq_task` terminates on the empty FIFO and has run the events in exactly
the order of their insertion, each exactly once. -/
theorem drain_runs_in_insertion_order {σ : Type} (env : Env σ) (hquiet : Quiet env)
    (h : pq_handle) (cap : Nat) (hstarted : h.queue = some { cap := cap, items := [] })
    (l : List Invoke) (hback : ∀ i ∈ l, i.to_front = false)
    (hok : ∀ b ∈ (invokes h l).2, b = true)
    (mem : σ) (tr : List Call) (fuel : Nat) (hfuel : l.length < fuel) :
    (drain env fuel { h := (invokes h l).1, mem := mem, trace := tr }).2 = Stop.empty ∧
    (drain env fuel { h := (invokes h l).1, mem := mem, trace := tr }).1.h.queue =
      some { cap := cap, items := [] } ∧
    (drain env fuel { h := (invokes h l).1, mem := mem, trace := tr }).1.trace.map Call.erase =
      tr.map Call.erase ++ (l.map (Invoke.event h.addr)).flatMap expected := by
  have h1 := invokes_back l h _ hstarted hback hok
  have h2 := drain_quiet env hquiet (l.map (Invoke.event h.addr))
    { h := (invokes h l).1, mem := mem, trace := tr } cap fuel (by rw [h1]; simp)
    (by simpa using hfuel)
  exact h2

theorem drain_runs_in_insertion_order_witness :
    (drain quiet_env 3 { h := (invokes (started 4 none)
        [call 1 10 false, call 2 20 false]).1, mem := (), trace := [] }).2 = Stop.empty ∧
    (drain quiet_env 3 { h := (invokes (started 4 none)
        [call 1 10 false, call 2 20 false]).1, mem := (), trace := [] }).1.h.queue =
      some { cap := 4, items := [] } ∧
    (drain quiet_env 3 { h := (invokes (started 4 none)
        [call 1 10 false, call 2 20 false]).1, mem := (), trace := [] }).1.trace.map
        Call.erase = [Call.cb 1 10 0, Call.cb 2 20 0] :=
  drain_runs_in_insertion_order quiet_env quiet_env_quiet (started 4 none) 4 rfl
    [call 1 10 false, call 2 20 false] (by decide) (by decide) () [] 3 (by decide)

/-- C2 (as amended): an event enqueued with `to_front = true` is executed before every
event that was in the FIFO at the moment of insertion, earlier front insertions included:
front insertions that wait together are run in the reverse of their insertion order. -/
theorem front_insertions_run_latest_first {σ : Type} (env : Env σ) (hquiet : Quiet env)
    (h : pq_handle) (q : Queue) (hstarted : h.queue = some q)
    (l : List Invoke) (hfront : ∀ i ∈ l, i.to_front = true)
    (hok : ∀ b ∈ (invokes h l).2, b = true)
    (mem : σ) (tr : List Call) (fuel : Nat) (hfuel : l.length + q.items.length < fuel) :
    (invokes h l).1.queue =
      some { cap := q.cap, items := (l.map (Invoke.event h.addr)).reverse ++ q.items } ∧
    (drain env fuel { h := (invokes h l).1, mem := mem, trace := tr }).2 = Stop.empty ∧
    (drain env fuel { h := (invokes h l).1, mem := mem, trace := tr }).1.trace.map Call.erase =
      tr.map Call.erase ++
        ((l.map (Invoke.event h.addr)).reverse ++ q.items).flatMap expected := by
  have h1 := invokes_front l h _ hstarted hfront hok
  have h2 := drain_quiet env hquiet ((l.map (Invoke.event h.addr)).reverse ++ q.items)
    { h := (invokes h l).1, mem := mem, trace := tr } q.cap fuel (by rw [h1])
    (by simpa using hfuel)
  exact ⟨by rw [h1], h2.1, h2.2.2⟩

theorem front_insertions_run_latest_first_witness :
    (invokes (invokes (started 4 none) [call 0 0 false]).1
        [call 1 10 true, call 2 20 true]).1.queue =
      some { cap := 4, items :=
        [({ cb := some 2, mgcb := none, pqh := 64, arg := 20 } : pq_event),
         { cb := some 1, mgcb := none, pqh := 64, arg := 10 },
         { cb := some 0, mgcb := none, pqh := 64, arg := 0 }] } ∧
    (drain quiet_env 4 { h := (invokes (invokes (started 4 none) [call 0 0 false]).1
        [call 1 10 true, call 2 20 true]).1, mem := (), trace := [] }).2 = Stop.empty ∧
    (drain quiet_env 4 { h := (invokes (invokes (started 4 none) [call 0 0 false]).1
        [call 1 10 true, call 2 20 true]).1, mem := (), trace := [] }).1.trace.map
        Call.erase = [Call.cb 2 20 0, Call.cb 1 10 0, Call.cb 0 0 0] :=
  front_insertions_run_latest_first quiet_env quiet_env_quiet
    (invokes (started 4 none) [call 0 0 false]).1
    { cap := 4, items := [({ cb := some 0, mgcb := none, pqh := 64, arg := 0 } : pq_event)] }
    rfl [call 1 10 true, call 2 20 true] (by decide) (by decide) () [] 4 (by decide)

/-- C2 (as stated) fails: with event 0 queued, event 1 is front-inserted and then event 2 is
front-inserted while 1 still waits; all three calls succeed and the worker runs 2, then 1,
then 0, so the later front insertion runs before the earlier one. -/
theorem front_insertions_not_in_insertion_order :
    (invokes (started 4 none) [call 0 0 false, call 1 10 true, call 2 20 true]).2 =
      [true, true, true] ∧
    (drain quiet_env 4 { h := (invokes (started 4 none)
        [call 0 0 false, call 1 10 true, call 2 20 true]).1, mem := (), trace := [] }).1.trace =
      [Call.cb 2 20 0, Call.cb 1 10 0, Call.cb 0 0 0] ∧
    ¬ ((drain quiet_env 4 { h := (invokes (started 4 none)
        [call 0 0 false, call 1 10 true, call 2 20 true]).1, mem := (), trace := [] }).1.trace.indexOf
          (Call.cb 1 10 0) <
       (drain quiet_env 4 { h := (invokes (started 4 none)
        [call 0 0 false, call 1 10 true, call 2 20 true]).1, mem := (), trace := [] }).1.trace.indexOf
          (Call.cb 2 20 0)) := by
  decide

/-- C7: for every `cb`, `mgcb`, `arg`, `from_isr` and `to_front`, `pq_invoke_cb` returns
false on a `NULL` handle and on a handle whose `queue` field is `NULL` (not started), and
the handle is left exactly as it was. -/
theorem pq_invoke_cb_unstarted (cb mgcb : Option Nat) (arg : Nat) (from_isr to_front : Bool) :
    pq_invoke_cb none cb mgcb arg from_isr to_front = (none, false) ∧
    ∀ h : pq_handle, h.queue = none →
      pq_invoke_cb (some h) cb mgcb arg from_isr to_front = (some h, false) := by
  refine ⟨rfl, ?_⟩
  intro h hq
  simp [pq_invoke_cb, hq]

theorem pq_invoke_cb_unstarted_witness :
    fresh.queue = none ∧
    pq_invoke_cb (some fresh) (some 1) (some 2) 3 true true = (some fresh, false) :=
  ⟨rfl, (pq_invoke_cb_unstarted (some 1) (some 2) 3 true true).2 fresh rfl⟩

/-- C8: a handle filled by `pq_set_defaults` and then customised in any field other than
`queue` and `task` is started successfully when the FIFO allocation and the worker spawn
succeed; afterwards, whatever producers have enqueued meanwhile and whatever the
allocator and spawner would answer, every further `pq_start` returns false and leaves the
whole handle (so its `queue`, its `task` and the FIFO contents) unchanged. -/
theorem pq_start_succeeds_exactly_once (h0 : pq_handle) (name : String)
    (idle_interval_ms : Int) (idle_cb : Option Nat)
    (idle_cb_arg idle_count prio stack_size queue_len t : Nat) :
    ∃ h1 : pq_handle,
      pq_start true (some t) (some { pq_set_defaults h0 with
        name := name, idle_interval_ms := idle_interval_ms, idle_cb := idle_cb,
        idle_cb_arg := idle_cb_arg, idle_count := idle_count, prio := prio,
        stack_size := stack_size, queue_len := queue_len }) = (some h1, true) ∧
      h1.queue = some (Queue.mk (if queue_len = 0 then MGOS_TASK_QUEUE_LENGTH else queue_len)
        []) ∧
      h1.task = some t ∧
      ∀ (l : List Invoke) (alloc_ok : Bool) (spawn : Option Nat),
        pq_start alloc_ok spawn (some (invokes h1 l).1) = (some (invokes h1 l).1, false) := by
  refine ⟨_, pq_start_fresh _ rfl rfl t, rfl, rfl, ?_⟩
  intro l alloc_ok spawn
  exact pq_start_again _ (invokes_queue_isSome l _ (by simp)) alloc_ok spawn

/-- C9: on a started handle of capacity `c`, nothing being consumed during the call,
`pq_invoke_cb` succeeds and adds exactly one event (at the tail, or at the head when
`to_front`) when the FIFO holds fewer than `c` events, and returns false leaving the handle
unchanged when it holds `c` events, for `from_isr` true and false alike.  With a handle
started with `queue_len = 2`: of three insertions, the first two to the tail, the first two
succeed and the third fails, and the drain phase then runs the two queued events in
insertion order. -/
theorem pq_invoke_cb_respects_capacity {σ : Type} (h : pq_handle) (c : Nat)
    (items : List pq_event) (hq : h.queue = some { cap := c, items := items })
    (cb mgcb : Option Nat) (arg : Nat) (from_isr to_front : Bool)
    (env : Env σ) (hquiet : Quiet env) (h2 hs : pq_handle) (t : Nat)
    (hlen : h2.queue_len = 2) (hstart : pq_start true (some t) (some h2) = (some hs, true))
    (i1 i2 i3 : Invoke) (hb1 : i1.to_front = false) (hb2 : i2.to_front = false)
    (mem : σ) (tr : List Call) :
    (items.length < c →
      pq_invoke_cb (some h) cb mgcb arg from_isr to_front =
        (some { h with queue := some { cap := c, items := (if to_front then
          ({ cb := cb, mgcb := mgcb, arg := arg, pqh := h.addr } : pq_event) :: items
          else items ++ [({ cb := cb, mgcb := mgcb, arg := arg, pqh := h.addr } : pq_event)]) } },
          true)) ∧
    (items.length = c →
      pq_invoke_cb (some h) cb mgcb arg from_isr to_front = (some h, false)) ∧
    (invokes hs [i1, i2, i3]).2 = [true, true, false] ∧
    (invokes hs [i1, i2, i3]).1.queue =
      some { cap := 2, items := [i1.event hs.addr, i2.event hs.addr] } ∧
    (drain env 3 { h := (invokes hs [i1, i2, i3]).1, mem := mem, trace := tr }).2 =
      Stop.empty ∧
    (drain env 3 { h := (invokes hs [i1, i2, i3]).1, mem := mem, trace := tr }).1.trace.map
        Call.erase =
      tr.map Call.erase ++ (expected (i1.event hs.addr) ++ expected (i2.event hs.addr)) := by
  have hsq : hs.queue = some { cap := 2, items := [] } := by
    have := pq_start_true h2 hs true (some t) hstart
    simpa [hlen] using this
  have e1 : invoke hs i1 =
      ({ hs with queue := some { cap := 2, items := [i1.event hs.addr] } }, true) := by
    rw [invoke_some hs _ hsq]
    simp [hb1]
  have e2 : invoke { hs with queue := some { cap := 2, items := [i1.event hs.addr] } } i2 =
      ({ hs with queue := some { cap := 2, items := [i1.event hs.addr, i2.event hs.addr] } },
        true) := by
    rw [invoke_some _ { cap := 2, items := [i1.event hs.addr] } rfl]
    simp [hb2]
  have e3 : invoke
      { hs with queue := some { cap := 2, items := [i1.event hs.addr, i2.event hs.addr] } } i3 =
      ({ hs with queue := some { cap := 2, items := [i1.event hs.addr, i2.event hs.addr] } },
        false) := by
    rw [invoke_some _ { cap := 2, items := [i1.event hs.addr, i2.event hs.addr] } rfl]
    simp
  have e4 : invokes hs [i1, i2, i3] =
      ({ hs with queue := some { cap := 2, items := [i1.event hs.addr, i2.event hs.addr] } },
        [true, true, false]) := by
    simp only [invokes, e1, e2, e3]
  have hd := drain_quiet env hquiet [i1.event hs.addr, i2.event hs.addr]
    { h := (invokes hs [i1, i2, i3]).1, mem := mem, trace := tr } 2 3 (by rw [e4])
    (by simp)
  refine ⟨?_, ?_, by rw [e4], by rw [e4], hd.1, ?_⟩
  · intro hl
    rw [pq_invoke_cb_some h _ hq]
    simp [hl]
  · intro hl
    rw [pq_invoke_cb_some h _ hq]
    simp [hl]
  · rw [hd.2.2]
    simp

theorem pq_invoke_cb_respects_capacity_witness :
    (invokes (started 2 none) [call 1 10 false, call 2 20 false, call 3 30 false]).2 =
      [true, true, false] ∧
    (drain quiet_env 3 (State.mk (invokes (started 2 none)
        [call 1 10 false, call 2 20 false, call 3 30 false]).1 () [])).1.trace.map
        Call.erase = [Call.cb 1 10 0, Call.cb 2 20 0] ∧
    pq_invoke_cb (some (started 2 none)) (some 1) none 10 true true =
      (some { started 2 none with queue := some { cap := 2, items :=
        [({ cb := some 1, mgcb := none, arg := 10, pqh := 64 } : pq_event)] } }, true) :=
  have w := pq_invoke_cb_respects_capacity (started 2 none) 2 [] rfl (some 1) none 10 true true
    quiet_env quiet_env_quiet { fresh with queue_len := 2 } (started 2 none) 1 rfl rfl
    (call 1 10 false) (call 2 20 false) (call 3 30 false) rfl rfl () []
  ⟨w.2.2.1, w.2.2.2.2.2, w.1 (by decide)⟩

/-- C3 (as amended): let `s` be the worker state once event `e`, with typed callback `c`,
has been received.  If `c` returns false and the FIFO has a free slot at the moment `c`
returns, which is when `pq_task` re-enqueues, `pq_task` puts an event with the same
callback and argument (legacy slot cleared) at the tail; if `c` returns true, `pq_task`
adds nothing. -/
theorem repeat_event_back_at_tail_when_space {σ : Type} (env : Env σ) (s : State σ)
    (e : pq_event) (c : Nat) (hc : e.cb = some c) :
    ((env.cb c (run_mgcb env s e).mem (run_mgcb env s e).h e.arg).2.2 = 0 →
      ∀ q, (env.cb c (run_mgcb env s e).mem (run_mgcb env s e).h e.arg).2.1.queue = some q →
        q.items.length < q.cap →
        (run_event env s e).h.queue = some { q with items := q.items ++
          [({ cb := some c, mgcb := none, arg := e.arg,
              pqh := (env.cb c (run_mgcb env s e).mem (run_mgcb env s e).h e.arg).2.1.addr } :
            pq_event)] }) ∧
    ((env.cb c (run_mgcb env s e).mem (run_mgcb env s e).h e.arg).2.2 ≠ 0 →
      (run_event env s e).h =
        (env.cb c (run_mgcb env s e).mem (run_mgcb env s e).h e.arg).2.1) := by
  refine ⟨?_, ?_⟩
  · intro hr q hq hl
    rw [run_event_repeat env s e c q hc hr hq hl]
  · intro hr
    exact run_event_done env s e c hc hr

theorem repeat_event_back_at_tail_when_space_witness :
    (run_event repeat_env { h := started 2 none, mem := (), trace := [] }
        { cb := some 5, mgcb := none, arg := 9, pqh := 64 }).h.queue =
      some { cap := 2, items :=
        [({ cb := some 5, mgcb := none, arg := 9, pqh := 64 } : pq_event)] } ∧
    (run_event quiet_env { h := started 2 none, mem := (), trace := [] }
        { cb := some 5, mgcb := none, arg := 9, pqh := 64 }).h = started 2 none :=
  ⟨(repeat_event_back_at_tail_when_space repeat_env
      { h := started 2 none, mem := (), trace := [] }
      { cb := some 5, mgcb := none, arg := 9, pqh := 64 } 5 rfl).1 rfl
      { cap := 2, items := [] } rfl (by decide),
   (repeat_event_back_at_tail_when_space quiet_env
      { h := started 2 none, mem := (), trace := [] }
      { cb := some 5, mgcb := none, arg := 9, pqh := 64 } 5 rfl).2 (by decide)⟩

/-- C3 (as stated) fails when the FIFO is full at the moment the callback returns.  Capacity
1, one event for callback 3 queued.  The worker removes it and runs callback 3, which
enqueues an event for callback 2 (filling the FIFO) and returns false; the re-enqueue by
`pq_task` fails, the FIFO holds only the event for callback 2, and the drain phase ends
after callback 2 without callback 3 ever being queued or run again. -/
theorem repeat_event_lost_when_full :
    (invokes (started 1 none) [call 3 30 false]).2 = [true] ∧
    (demo_env.cb 3 () { started 1 none with queue := some { cap := 1, items := [] } } 30).2.2
      = 0 ∧
    (drain demo_env 1 (State.mk (invokes (started 1 none) [call 3 30 false]).1 () [])).1.h.queue =
      some { cap := 1, items :=
        [({ cb := some 2, mgcb := none, arg := 30, pqh := 64 } : pq_event)] } ∧
    (drain demo_env 3 (State.mk (invokes (started 1 none) [call 3 30 false]).1 () [])).1.trace = [Call.cb 3 30 0, Call.cb 2 30 0] ∧
    (drain demo_env 3 (State.mk (invokes (started 1 none) [call 3 30 false]).1 () [])).2 = Stop.empty := by
  decide

/-- C10: for an event with legacy callback `m` and typed callback `c`, `pq_task` calls
`m(arg)` first and `c(handle, arg)` second; when `c` returns true nothing is re-enqueued,
whatever `m` did; when `c` returns false (and the FIFO has a free slot) the event put at
the tail carries `c` and `arg` with the legacy slot cleared; so when no callback touches the
queue and no other queued event carries a legacy callback, `m` is called exactly once,
first of all, however many loop turns the drain phase makes. -/
theorem legacy_callback_first_and_only_once {σ : Type} (env : Env σ) (s : State σ)
    (e : pq_event) (m c : Nat) (hm : e.mgcb = some m) (hc : e.cb = some c) :
    (run_event env s e).trace =
      s.trace ++ [Call.mgcb m e.arg, Call.cb c e.arg (run_mgcb env s e).h.idle_count] ∧
    ((env.cb c (run_mgcb env s e).mem (run_mgcb env s e).h e.arg).2.2 ≠ 0 →
      (run_event env s e).h =
        (env.cb c (run_mgcb env s e).mem (run_mgcb env s e).h e.arg).2.1) ∧
    ((env.cb c (run_mgcb env s e).mem (run_mgcb env s e).h e.arg).2.2 = 0 →
      ∀ q, (env.cb c (run_mgcb env s e).mem (run_mgcb env s e).h e.arg).2.1.queue = some q →
        q.items.length < q.cap →
        (run_event env s e).h.queue = some { q with items := q.items ++
          [({ cb := some c, mgcb := none, arg := e.arg,
              pqh := (env.cb c (run_mgcb env s e).mem (run_mgcb env s e).h e.arg).2.1.addr } :
            pq_event)] }) ∧
    (KeepsQueue env → ∀ (cap : Nat) (rest : List pq_event) (fuel : Nat),
      s.h.queue = some { cap := cap, items := e :: rest } → (∀ x ∈ rest, x.mgcb = none) →
      ∃ i0 t, (drain env (fuel + 1) s).1.trace =
          s.trace ++ Call.mgcb m e.arg :: Call.cb c e.arg i0 :: t ∧
        ∀ x ∈ t, Call.isMgcb x = false) := by
  have ht : ∀ s1 : State σ, (run_event env s1 e).trace =
      s1.trace ++ [Call.mgcb m e.arg, Call.cb c e.arg (run_mgcb env s1 e).h.idle_count] := by
    intro s1
    rw [run_event_trace, run_mgcb_trace]
    simp [hm, hc]
  refine ⟨ht s, ?_, ?_, ?_⟩
  · intro hr
    exact run_event_done env s e c hc hr
  · intro hr q hq hl
    rw [run_event_repeat env s e c q hc hr hq hl]
  · intro hk cap rest fuel hq hn
    rw [drain]
    simp only [hq, xQueueReceive]
    obtain ⟨q1, hq1, hn1⟩ := run_event_mgcb_free env hk
      { s with h := { s.h with queue := some { cap := cap, items := rest } } } e
      { cap := cap, items := rest } rfl hn
    obtain ⟨t, h1, h2⟩ := drain_no_mgcb env hk fuel _ q1 hq1 hn1
    refine ⟨(run_mgcb env
      { s with h := { s.h with queue := some { cap := cap, items := rest } } } e).h.idle_count,
      t, ?_, h2⟩
    rw [h1, ht]
    simp

theorem legacy_callback_first_and_only_once_witness :
    ∃ i0 t, (drain repeat_env 4 (State.mk { started 2 none with queue := some (Queue.mk 2
          [({ cb := some 5, mgcb := some 6, arg := 9, pqh := 64 } : pq_event)]) }
          () [])).1.trace =
        [] ++ Call.mgcb 6 9 :: Call.cb 5 9 i0 :: t ∧
      ∀ x ∈ t, Call.isMgcb x = false :=
  (legacy_callback_first_and_only_once repeat_env
    (State.mk { started 2 none with queue := some (Queue.mk 2
        [({ cb := some 5, mgcb := some 6, arg := 9, pqh := 64 } : pq_event)]) } () [])
    { cb := some 5, mgcb := some 6, arg := 9, pqh := 64 } 6 5 rfl rfl).2.2.2
    repeat_env_keeps_queue 2 [] 3 rfl (by simp)

/-- C4 (as amended): in every idle run with an idle hook configured, whatever was drained
before it, the first call of the hook reads `idle_count = 0`; and as long as the hook keeps
returning false (leaving the handle alone), every timed wait elapses and no event arrives,
the `(k+1)`-th consecutive call reads `idle_count = k mod 2 ^ size_bits` (the counter is a
`size_t`), which is `k` for every `k < 2 ^ size_bits`.  The hook may stop returning false
later, and anything may happen after that; a hook that never returns true is called
exactly once more per elapsed wait. -/
theorem idle_hook_reads_poll_count {σ : Type} (env : Env σ) (f fuel rounds : Nat)
    (hrounds : 0 < rounds)
    (s0 s : State σ) (hd : drain env fuel s0 = (s, Stop.empty)) (hf : s.h.idle_cb = some f) :
    (∀ ws, ∃ t, (idle_phase env ws s).1.trace =
      s.trace ++ Call.idle f s.h.idle_cb_arg 0 :: t) ∧
    (∀ n, FirstCallsFalse env f n { s with h := { s.h with idle_count := 0 } } →
      s.h.idle_interval_ms ≠ PQ_MS_FOREVER → ∀ rest,
      (∃ t, (pq_task env fuel rounds (List.replicate n [] ++ rest) s0).1.trace =
        s.trace ++ (List.range (n + 1)).map
          (fun k => Call.idle f s.h.idle_cb_arg (k % 2 ^ env.size_bits)) ++ t) ∧
      ∀ k, k ≤ n → k < 2 ^ env.size_bits →
        (pq_task env fuel rounds (List.replicate n [] ++ rest) s0).1.trace[s.trace.length + k]? =
          some (Call.idle f s.h.idle_cb_arg k)) ∧
    ((∀ m h a, (env.cb f m h a).2.1 = h ∧ (env.cb f m h a).2.2 = 0) →
      s.h.idle_interval_ms ≠ PQ_MS_FOREVER → ∀ n,
      (pq_task env fuel rounds (List.replicate n []) s0).2 = Stop.parked ∧
      (pq_task env fuel rounds (List.replicate n []) s0).1.trace =
        s.trace ++ (List.range (n + 1)).map
          (fun k => Call.idle f s.h.idle_cb_arg (k % 2 ^ env.size_bits)) ∧
      ∀ k, k ≤ n → k < 2 ^ env.size_bits →
        (pq_task env fuel rounds (List.replicate n []) s0).1.trace[s.trace.length + k]? =
          some (Call.idle f s.h.idle_cb_arg k)) := by
  obtain ⟨r, rfl⟩ : ∃ r, rounds = r + 1 := ⟨rounds - 1, by omega⟩
  refine ⟨?_, ?_, ?_⟩
  · intro ws
    obtain ⟨t, ht⟩ := idle_loop_trace env ws { s with h := { s.h with idle_count := 0 } }
    refine ⟨t, ?_⟩
    unfold idle_phase
    rw [ht]
    simp [hf]
  · intro n hfc hi rest
    obtain ⟨t, ht⟩ := pq_task_polls env f fuel r n s0 s hd hf hi hfc rest
    refine ⟨⟨t, ht⟩, ?_⟩
    intro k hkn hkM
    rw [ht, List.append_assoc, List.getElem?_append_right (Nat.le_add_right _ _),
      Nat.add_sub_cancel_left,
      List.getElem?_append_left (by rw [List.length_map, List.length_range]; omega),
      List.getElem?_map, List.getElem?_range (by omega)]
    simp [Nat.mod_eq_of_lt hkM]
  · intro hk hi n
    obtain ⟨cap, hq⟩ := drain_empty_queue env fuel s0 (by rw [hd])
    rw [hd] at hq
    have hp := idle_phase_polling env f hk n s cap hq hf hi
    have ht : (pq_task env fuel (r + 1) (List.replicate n []) s0) =
        ((idle_phase env (List.replicate n []) s).1, Stop.parked) := by
      rw [pq_task, hd]
      simp only
      rcases hx : idle_phase env (List.replicate n []) s with ⟨s2, st, rest⟩
      rw [hx] at hp
      simp only at hp
      rw [hp.1]
    rw [ht]
    refine ⟨rfl, hp.2, ?_⟩
    intro k hkn hkM
    simp only
    rw [hp.2, List.getElem?_append_right (Nat.le_add_right _ _), Nat.add_sub_cancel_left,
      List.getElem?_map, List.getElem?_range (by omega)]
    simp [Nat.mod_eq_of_lt hkM]

theorem idle_hook_reads_poll_count_witness :
    (pq_task demo_env 1 1 (List.replicate 5 [] ++ [[]]) (boot_state (some 9))).1.trace[0 + 5]? =
      some (Call.idle 9 0 5) ∧
    (pq_task demo_env 3 1 (List.replicate 3 []) woken_state).2 = Stop.parked ∧
    (pq_task demo_env 3 1 (List.replicate 3 []) woken_state).1.trace =
      [Call.cb 1 10 5, Call.idle 7 0 0, Call.idle 7 0 1, Call.idle 7 0 2, Call.idle 7 0 3] :=
  have w := (idle_hook_reads_poll_count demo_env 7 3 1 (by decide) woken_state
    (drain demo_env 3 woken_state).1 rfl rfl).2.2 (fun _ _ _ => ⟨rfl, rfl⟩) (by decide) 3
  ⟨((idle_hook_reads_poll_count demo_env 9 1 1 (by decide) (boot_state (some 9))
      (boot_state (some 9)) rfl rfl).2.1 5 (by unfold FirstCallsFalse; decide!) (by decide)
      [[]]).2 5 (by decide) (by decide),
    w.1, w.2.1⟩

/-- C4 (as stated) fails for `k = 2 ^ 32` where `size_t` has 32 bits: with a hook that always
returns false and waits that all elapse, the call number `2 ^ 32 + 1` of the hook reads
`idle_count = 0`, not `2 ^ 32`. -/
theorem idle_count_wraps_around :
    demo_env.size_bits = 32 ∧
    (idle_phase demo_env (List.replicate (2 ^ 32) []) (boot_state (some 7))).1.trace[2 ^ 32]? =
      some (Call.idle 7 0 0) ∧
    (idle_phase demo_env (List.replicate (2 ^ 32) []) (boot_state (some 7))).1.trace[2 ^ 32]? ≠
      some (Call.idle 7 0 (2 ^ 32)) := by
  have hv : (idle_phase demo_env (List.replicate (2 ^ 32) [])
      (boot_state (some 7))).1.trace[2 ^ 32]? = some (Call.idle 7 0 0) := by
    rw [(idle_phase_polling demo_env 7 (fun _ _ _ => ⟨rfl, rfl⟩) (2 ^ 32)
      (boot_state (some 7)) 4 rfl rfl (by decide)).2,
      show (boot_state (some 7)).trace = [] from rfl, List.nil_append, List.getElem?_map,
      List.getElem?_range (Nat.lt_succ_self _)]
    rfl
  refine ⟨rfl, hv, ?_⟩
  rw [hv]
  decide

/-- C5 (as amended): `pq_task` does not reset `idle_count` when it leaves the idle phase.
If an idle run ended with `idle_count = n` and no callback writes the field, the drain
phase that follows keeps it at `n` and every typed callback it runs reads `n`; the reset
to zero happens when the drain phase is over, before the first call of the idle hook in
the next idle run. -/
theorem idle_count_kept_until_next_idle_run {σ : Type} (env : Env σ)
    (hk : KeepsIdleCount env) (fuel n : Nat) (s : State σ) (hn : s.h.idle_count = n) :
    (drain env fuel s).1.h.idle_count = n ∧
    (∃ t, (drain env fuel s).1.trace = s.trace ++ t ∧
      ∀ f a i, Call.cb f a i ∈ t → i = n) ∧
    (∀ ws f, (drain env fuel s).1.h.idle_cb = some f →
      ∃ t, (idle_phase env ws (drain env fuel s).1).1.trace =
        (drain env fuel s).1.trace ++
          Call.idle f (drain env fuel s).1.h.idle_cb_arg 0 :: t) := by
  obtain ⟨h1, t, h2, h3⟩ := drain_idle_count env hk fuel s
  refine ⟨by rw [h1, hn], ⟨t, h2, fun f a i hm => by rw [h3 f a i hm, hn]⟩, ?_⟩
  intro ws f hf
  obtain ⟨t2, ht2⟩ := idle_loop_trace env ws
    { (drain env fuel s).1 with h := { (drain env fuel s).1.h with idle_count := 0 } }
  refine ⟨t2, ?_⟩
  unfold idle_phase
  rw [ht2]
  simp [hf]

theorem idle_count_kept_until_next_idle_run_witness :
    (drain quiet_env 3 woken_state).1.h.idle_count = 5 ∧
    ∃ t, (drain quiet_env 3 woken_state).1.trace = woken_state.trace ++ t ∧
      ∀ f a i, Call.cb f a i ∈ t → i = 5 :=
  have w := idle_count_kept_until_next_idle_run quiet_env quiet_env_keeps_idle_count 3 5
    woken_state rfl
  ⟨w.1, w.2.1⟩

/-- C5 (as stated) fails: a worker with polling hook 7 idles through two elapsed waits; during
the third wait an event for callback 4 is enqueued.  The idle run ends with
`idle_count = 3`, and callback 4, run in the drain phase that follows, reads
`idle_count = 3`, not 0.  The counter is back at 0 only for the next call of the hook. -/
theorem idle_count_not_reset_on_wake_up :
    (pq_task demo_env 3 2 [[], [], [call 4 40 false]] (boot_state (some 7))).2 = Stop.parked ∧
    (pq_task demo_env 3 2 [[], [], [call 4 40 false]] (boot_state (some 7))).1.trace =
      [Call.idle 7 0 0, Call.idle 7 0 1, Call.idle 7 0 2, Call.cb 4 40 3, Call.idle 7 0 0] := by
  decide!

/-- C6 (as amended): with an idle hook that returns false while `idle_count < 2` and true
otherwise (and leaves the handle alone), on a started handle whose FIFO stays empty and
whose timed waits elapse, the hook is called exactly three times in the idle run, reading
`idle_count` 0, 1 and 2; after the third call, which returns true, the worker blocks in the
untimed peek and the hook is not called again however long the FIFO stays empty; the
first producer call wakes the worker up. -/
theorem idle_hook_stops_after_third_call {σ : Type} (env : Env σ) (f : Nat)
    (hk : ∀ m h a, (env.cb f m h a).2.1 = h ∧ ((env.cb f m h a).2.2 = 0 ↔ h.idle_count < 2))
    (hw : 2 ≤ env.size_bits) (h : pq_handle) (cap : Nat)
    (hq : h.queue = some { cap := cap, items := [] }) (hf : h.idle_cb = some f)
    (hi : h.idle_interval_ms ≠ PQ_MS_FOREVER) (mem : σ) (tr : List Call)
    (fuel rounds : Nat) (hfuel : 0 < fuel) (hrounds : 0 < rounds) :
    (∀ n,
      (pq_task env fuel rounds (List.replicate (n + 2) [])
        { h := h, mem := mem, trace := tr }).2 = Stop.parked ∧
      (pq_task env fuel rounds (List.replicate (n + 2) [])
        { h := h, mem := mem, trace := tr }).1.trace =
        tr ++ [Call.idle f h.idle_cb_arg 0, Call.idle f h.idle_cb_arg 1,
          Call.idle f h.idle_cb_arg 2]) ∧
    (∀ n i rest, 0 < cap →
      (idle_phase env (List.replicate (n + 2) [] ++ [i] :: rest)
        { h := h, mem := mem, trace := tr }).2 = (Stop.woken, rest) ∧
      (idle_phase env (List.replicate (n + 2) [] ++ [i] :: rest)
        { h := h, mem := mem, trace := tr }).1.trace =
        tr ++ [Call.idle f h.idle_cb_arg 0, Call.idle f h.idle_cb_arg 1,
          Call.idle f h.idle_cb_arg 2] ∧
      (idle_phase env (List.replicate (n + 2) [] ++ [i] :: rest)
        { h := h, mem := mem, trace := tr }).1.h.queue =
        some { cap := cap, items := [i.event h.addr] }) := by
  obtain ⟨r, rfl⟩ : ∃ r, rounds = r + 1 := ⟨rounds - 1, by omega⟩
  obtain ⟨g, rfl⟩ : ∃ g, fuel = g + 1 := ⟨fuel - 1, by omega⟩
  constructor
  · intro n
    obtain ⟨m3, h3⟩ := idle_phase_threshold env f hk hw { h := h, mem := mem, trace := tr }
      cap hq hf hi (List.replicate n [])
    have hd : drain env (g + 1) { h := h, mem := mem, trace := tr } =
        ({ h := h, mem := mem, trace := tr }, Stop.empty) := by
      simp [drain, hq, xQueueReceive]
    rw [pq_task, hd]
    simp only [List.replicate_succ]
    rw [h3, peek_forever_empty n _ cap hq]
    exact ⟨rfl, rfl⟩
  · intro n i rest hc
    obtain ⟨m3, h3⟩ := idle_phase_threshold env f hk hw { h := h, mem := mem, trace := tr }
      cap hq hf hi (List.replicate n [] ++ [i] :: rest)
    simp only [List.replicate_succ, List.cons_append]
    rw [h3, peek_forever_arrival n _ cap i rest hq hc]
    refine ⟨rfl, rfl, ?_⟩
    simp only [producers, invokes]
    rw [invoke_some { h with idle_count := 2 } _ hq]
    cases i.to_front <;> simp [hc]

theorem idle_hook_stops_after_third_call_witness :
    (pq_task demo_env 1 1 (List.replicate (3 + 2) []) (boot_state (some 8))).2 = Stop.parked ∧
    (pq_task demo_env 1 1 (List.replicate (3 + 2) []) (boot_state (some 8))).1.trace =
      [Call.idle 8 0 0, Call.idle 8 0 1, Call.idle 8 0 2] :=
  (idle_hook_stops_after_third_call demo_env 8
    (fun _ h _ => ⟨rfl, by
      show (if h.idle_count < 2 then (0 : Int) else 1) = 0 ↔ h.idle_count < 2
      split <;> simp_all⟩)
    (by decide) (started 4 (some 8)) 4 rfl rfl (by decide) () [] 1 1 (by decide)
    (by decide)).1 3

/-- C6 (as stated) fails: with that hook, started with interval 50 ms, five waits elapsing on
an empty FIFO, the hook has been called three times, not five or more. -/
theorem idle_hook_called_three_times_not_five :
    (demo_env.cb 8 () { started 4 (some 8) with idle_count := 1 } 0).2.2 = 0 ∧
    (demo_env.cb 8 () { started 4 (some 8) with idle_count := 2 } 0).2.2 = 1 ∧
    (pq_task demo_env 1 1 (List.replicate 5 [])
      (State.mk { started 4 (some 8) with idle_interval_ms := 50 } () [])).1.trace =
      [Call.idle 8 0 0, Call.idle 8 0 1, Call.idle 8 0 2] ∧
    ¬ 5 ≤ (pq_task demo_env 1 1 (List.replicate 5 [])
      (State.mk { started 4 (some 8) with idle_interval_ms := 50 } () [])).1.trace.length := by
  decide!

end PQ
